import Mathlib

/-!
Shallow embedding of the coal transaction engine (`src/lib/core.ts`).

The engine keeps mutable heap objects linked by references; we model the heap
explicitly: state snapshots live in `Engine.states` (a `StateId` is an index
into that list), entities in `Engine.entities`, frames in `Engine.frames`.
JavaScript sparse arrays (`openTransactions`, `pausedTransactions`, where
`delete arr[i]` leaves a hole and does not shrink `length`) are modelled as
`List (Option _)` with an index-padding setter.  A `TransactionSet` (a sparse
boolean array in the source, observed only through truthiness of `invalid[id]`)
is modelled as the list of indices holding `true`.  Each fallible operation
returns `(Except String α) × Engine`: the engine component is the state after
the call even when an error is thrown, matching JavaScript exception semantics
(in particular `commitTransaction` aborts and then rethrows on a merge
conflict, leaving the abort's effects in place).
-/

namespace Coal

/-- Transaction numbers marked invalid; the source's sparse boolean array is
observed only through membership. -/
abbrev TransactionSet := List Nat

/-- `FrameState` from the source; `open` is rendered `opn`. -/
inductive FrameState where
  | opn
  | paused
  | aborted
  | committed
deriving DecidableEq, Repr

/-- A `Frame`; the optional callbacks are modelled by whether they were
supplied, their invocations are recorded in `Engine.events`. -/
structure Frame where
  state : FrameState
  hasOncommit : Bool
  hasOnabort : Bool
deriving DecidableEq, Repr

instance : Inhabited Frame := ⟨⟨.opn, false, false⟩⟩

/-- A `State` snapshot node.  `previous` and `entity` are heap references
(indices); `data` stands for the non-underscore payload fields (the default
`clone` copies exactly those). -/
structure StateNode where
  min : Option Nat := none
  max : Option Nat := none
  previous : Option Nat := none
  entity : Option Nat := none
  data : Nat := 0
deriving DecidableEq, Repr

instance : Inhabited StateNode := ⟨{}⟩

/-- An `Entity`: its resolution stamp `transaction`, the newest chain node
`previous`, and the cached resolved state `state` (which `makeReadable` can
set to `undefined`, hence `Option`). -/
structure EntityObj where
  transaction : Nat
  previous : Nat
  state : Option Nat
deriving DecidableEq, Repr

/-- The `Transaction` record held in `currentTransaction` / the paused table.
`frame` is a reference into `Engine.frames`. -/
structure Txn where
  number : Nat
  mutated : List Nat
  invalid : TransactionSet
  frame : Nat
deriving DecidableEq, Repr

/-- Externally observable callback invocations.  The source's abort path
evaluates `frame.onabort` but never calls it, so no constructor for an abort
callback is ever emitted by the model (see `abortTransaction`). -/
inductive Event where
  | commitCalled (frame : Nat) (mutated : List Nat)
  | abortCalled (frame : Nat)
deriving DecidableEq, Repr

/-- Read a JavaScript sparse array slot: holes and out-of-range read as
`undefined`. -/
def getSparse (l : List (Option α)) (i : Nat) : Option α :=
  l.getD i none

/-- Write a JavaScript sparse array slot, padding with holes as assignment to
an index beyond `length` does. -/
def setSparse (l : List (Option α)) (i : Nat) (v : Option α) : List (Option α) :=
  (l ++ List.replicate (i + 1 - l.length) none).set i v

/-- Replace index `i` by `f` applied to the current element; out of range is
the identity. -/
def modifyIdx (l : List α) (i : Nat) (f : α → α) : List α :=
  match l[i]? with
  | none => l
  | some a => l.set i (f a)

/-- The module-level mutable state of `core.ts`, plus the heaps and the
callback event log. -/
structure Engine where
  highestTransaction : Nat := 0
  highestCommittedTransaction : Nat := 0
  currentTransactionNumber : Nat := 0
  currentTransaction : Option Txn := none
  openTransactions : List (Option FrameState) := []
  stateObjectsWithPredecessors : List Nat := []
  pausedTransactions : List (Option Txn) := []
  states : List StateNode := []
  entities : List EntityObj := []
  frames : List Frame := []
  events : List Event := []
deriving DecidableEq, Repr

/-- The fresh module state: all counters 0, all tables empty. -/
def Engine.init : Engine := {}

/-- `isValid(id, current, invalid)` from the source: defined, `≤ current`,
and not in the invalid set. -/
def isValid (id : Option Nat) (current : Nat) (invalid : TransactionSet) : Bool :=
  match id with
  | none => false
  | some i => if i ≤ current then !(invalid.contains i) else false

/-- The visibility test `findVisible` applies to a node: created-at valid and
retired-at not valid. -/
def nodeVisible (n : StateNode) (asOf : Nat) (invalid : TransactionSet) : Bool :=
  isValid n.min asOf invalid && !(isValid n.max asOf invalid)

/-- `findVisible` from the source.  The source tests the head node and then
runs `state = state._previous` in a `while` loop with the same test; that is
exactly a uniform walk returning the first node passing `nodeVisible`, or
`undefined` when the chain runs out.  `fuel` bounds the walk (callers pass the
heap size, enough for any acyclic chain). -/
def findVisibleFrom (states : List StateNode) (asOf : Nat) (invalid : TransactionSet) :
    Nat → Option Nat → Option Nat
  | _, none => none
  | 0, some _ => none
  | fuel + 1, some sid =>
    match states[sid]? with
    | none => none
    | some n =>
      if nodeVisible n asOf invalid then some sid
      else findVisibleFrom states asOf invalid fuel n.previous

/-- Materialize the `previous`-chain starting at a node as the list of ids
visited; `none` when the fuel runs out or a reference dangles. -/
def chainFrom (states : List StateNode) : Nat → Option Nat → Option (List Nat)
  | _, none => some []
  | 0, some _ => none
  | fuel + 1, some sid =>
    match states[sid]? with
    | none => none
    | some n => (chainFrom states fuel n.previous).map (sid :: ·)

/-- Visibility of a chain node named by id. -/
def visibleAt (states : List StateNode) (asOf : Nat) (invalid : TransactionSet) (sid : Nat) :
    Bool :=
  match states[sid]? with
  | none => false
  | some n => nodeVisible n asOf invalid

/-- `inTransaction` from the source: `!!currentTransaction.mutated` (the empty
object has no `mutated`, every real transaction does). -/
def inTransaction (e : Engine) : Bool :=
  e.currentTransaction.isSome

/-- `currentInvalid()`: the transaction numbers whose lifecycle entry is
`open` or `aborted` (`forEach` skips holes). -/
def currentInvalid (open' : List (Option FrameState)) : TransactionSet :=
  (List.range open'.length).filter fun i =>
    match getSparse open' i with
    | some .opn => true
    | some .aborted => true
    | _ => false

/-- `bindState(object, state)`: allocates the entity/state pair the caller
built and wires them up; the state's `_min` becomes the current transaction
number, `_max` and `_previous` stay unset (`state._object` is set in the
source but read nowhere, and `_entity` stays unset on a root state). -/
def bindState (e : Engine) (v : Nat) : Nat × Engine :=
  let sid := e.states.length
  let eid := e.entities.length
  (eid,
   { e with
     states := e.states ++
       [{ min := some e.currentTransactionNumber, max := none, previous := none,
          entity := none, data := v }],
     entities := e.entities ++
       [{ transaction := e.currentTransactionNumber, previous := sid, state := some sid }] })

/-- `makeReadable`: resolve the visible state from the entity's newest chain
node under the current transaction number and invalid set
(`currentTransaction.invalid || []`), cache it, and stamp the entity. -/
def makeReadable (e : Engine) (eid : Nat) : Engine :=
  match e.entities[eid]? with
  | none => e
  | some ent =>
    let invalid : TransactionSet :=
      match e.currentTransaction with
      | some t => t.invalid
      | none => []
    let r := findVisibleFrom e.states e.currentTransactionNumber invalid
      e.states.length (some ent.previous)
    { e with
      entities := e.entities.set eid
        { ent with state := r, transaction := e.currentTransactionNumber } }

/-- `ensureReadable`: re-resolve only when the cached stamp is stale. -/
def ensureReadable (e : Engine) (eid : Nat) : Engine :=
  match e.entities[eid]? with
  | none => e
  | some ent =>
    if ent.transaction != e.currentTransactionNumber then makeReadable e eid else e

/-- The splice walk of `makeWritable`:
`while (previous && (previous._min || 0) > currentTransactionNumber)`.
Returns the ids walked past in order and the final `previous` pointer. -/
def spliceWalk (states : List StateNode) (ctn : Nat) : Nat → Option Nat → List Nat × Option Nat
  | _, none => ([], none)
  | 0, some sid => ([], some sid)
  | fuel + 1, some sid =>
    match states[sid]? with
    | none => ([], some sid)
    | some n =>
      if n.min.getD 0 > ctn then
        let r := spliceWalk states ctn fuel n.previous
        (sid :: r.1, r.2)
      else ([], some sid)

/-- `makeWritable`: validate, resolve readable, clone the resolved state (the
default `clone` copies only non-underscore fields, i.e. `data`), stamp its
`_min` and `_entity`, splice it into the chain past all nodes with
`_min > currentTransactionNumber` (`next._previous = newState` rewires the
last node walked past, or the entity itself when none was), set the old
state's `_max`, cache the new state, and log it.  When the resolved state is
`undefined` the source would fault reading its fields; that surfaces as a
`TypeError` result here. -/
def makeWritable (e : Engine) (eid : Nat) : Except String Unit × Engine :=
  match e.currentTransaction with
  | none => (.error "No open transaction", e)
  | some _ =>
    let e1 := ensureReadable e eid
    match e1.entities[eid]? with
    | none => (.ok (), e1)
    | some ent =>
      match ent.state with
      | none => (.error "TypeError", e1)
      | some stid =>
        match e1.states[stid]? with
        | none => (.error "TypeError", e1)
        | some st =>
          let ctn := e1.currentTransactionNumber
          let newSid := e1.states.length
          let walk := spliceWalk e1.states ctn e1.states.length (some ent.previous)
          let newNode : StateNode :=
            { min := some ctn, max := none, previous := walk.2, entity := some eid,
              data := st.data }
          let states1 := e1.states ++ [newNode]
          let states2 :=
            match walk.1.getLast? with
            | none => states1
            | some w => modifyIdx states1 w fun n => { n with previous := some newSid }
          let states3 := modifyIdx states2 stid fun n => { n with max := some ctn }
          let ent1 : EntityObj :=
            { ent with
              previous := if walk.1.isEmpty then newSid else ent.previous,
              state := some newSid }
          (.ok (),
           { e1 with
             states := states3,
             entities := e1.entities.set eid ent1,
             currentTransaction := e1.currentTransaction.map
               fun t => { t with mutated := t.mutated ++ [newSid] },
             stateObjectsWithPredecessors := e1.stateObjectsWithPredecessors ++ [newSid] })

/-- `ensureWritable`: write-through only when the cached state was not created
in the current transaction. -/
def ensureWritable (e : Engine) (eid : Nat) : Except String Unit × Engine :=
  match e.entities[eid]? with
  | none => (.ok (), e)
  | some ent =>
    let stMin : Option Nat :=
      match ent.state with
      | none => none
      | some sid => (e.states[sid]?).bind StateNode.min
    if ent.transaction != e.currentTransactionNumber ||
       stMin != some e.currentTransactionNumber then
      makeWritable e eid
    else (.ok (), e)

/-- The field-set guard of the collaborator layer (the test harness's property
setter): `ensureWritable(this); this._state[name] = value`. -/
def setData (e : Engine) (eid : Nat) (v : Nat) : Except String Unit × Engine :=
  match ensureWritable e eid with
  | (.error msg, e') => (.error msg, e')
  | (.ok (), e') =>
    match e'.entities[eid]? with
    | none => (.ok (), e')
    | some ent =>
      match ent.state with
      | none => (.error "TypeError", e')
      | some sid =>
        (.ok (), { e' with states := modifyIdx e'.states sid fun n => { n with data := v } })

/-- `beginTransaction`: allocate the next number, capture the invalid set
(before this number is registered `open`, so a transaction's own writes stay
visible to it), create an `open` frame, register the number.  Returns the
frame's reference. -/
def beginTransaction (e : Engine) (hasOncommit hasOnabort : Bool) :
    Except String Nat × Engine :=
  if e.currentTransaction.isSome then (.error "Already in a transaction", e)
  else
    let n := e.highestTransaction + 1
    let invalid := currentInvalid e.openTransactions
    let fid := e.frames.length
    (.ok fid,
     { e with
       highestTransaction := n,
       currentTransactionNumber := n,
       frames := e.frames ++ [{ state := .opn, hasOncommit, hasOnabort }],
       currentTransaction := some { number := n, mutated := [], invalid, frame := fid },
       openTransactions := setSparse e.openTransactions n (some .opn) })

/-- `pauseTransaction`: park the active transaction at the end of the paused
table (slot ids are the table length, never compacted), mark the frame
`paused`, fall back to the commit watermark. -/
def pauseTransaction (e : Engine) : Except String Nat × Engine :=
  match e.currentTransaction with
  | none => (.error "No open transaction", e)
  | some t =>
    let pid := e.pausedTransactions.length
    (.ok pid,
     { e with
       pausedTransactions := e.pausedTransactions ++ [some t],
       frames := modifyIdx e.frames t.frame fun f => { f with state := .paused },
       currentTransaction := none,
       currentTransactionNumber := e.highestCommittedTransaction })

/-- `restoreTransaction`: reject an empty slot or a transaction whose
lifecycle entry is no longer `open`; otherwise reactivate it and free the
slot (leaving a hole). -/
def restoreTransaction (e : Engine) (pid : Nat) : Except String Unit × Engine :=
  if e.currentTransaction.isSome then (.error "Invalid internal transaction state", e)
  else
    match getSparse e.pausedTransactions pid with
    | none => (.error "Invalid paused transaction", e)
    | some t =>
      if getSparse e.openTransactions t.number != some FrameState.opn then
        (.error "Invalid paused transaction", e)
      else
        (.ok (),
         { e with
           currentTransaction := some t,
           frames := modifyIdx e.frames t.frame fun f => { f with state := .opn },
           currentTransactionNumber := t.number,
           pausedTransactions := setSparse e.pausedTransactions pid none })

/-- `abortTransaction`: mark the lifecycle entry `aborted` (kept), mark the
frame `aborted`, deactivate.  The source ends with
`if (frame.onabort) frame.onabort;` which evaluates the callback without
calling it, so no `abortCalled` event is appended. -/
def abortTransaction (e : Engine) : Except String Unit × Engine :=
  match e.currentTransaction with
  | none => (.error "No open transaction", e)
  | some t =>
    (.ok (),
     { e with
       openTransactions := setSparse e.openTransactions e.currentTransactionNumber
         (some .aborted),
       frames := modifyIdx e.frames t.frame fun f => { f with state := .aborted },
       currentTransactionNumber := e.highestCommittedTransaction,
       currentTransaction := none })

/-- The conflict test `commitTransaction` runs for one mutated state: resolve
from the owning entity's newest node both at the baseline viewpoint and at
the current watermark viewpoint, and compare the references. -/
def mergeConflict (e : Engine) (baseTransaction : Nat)
    (baseInvalid invalid : TransactionSet) (sid : Nat) : Bool :=
  match (e.states[sid]?).bind StateNode.entity with
  | none => false
  | some eid =>
    match e.entities[eid]? with
    | none => false
    | some ent =>
      let baseState := findVisibleFrom e.states baseTransaction baseInvalid
        e.states.length (some ent.previous)
      let current := findVisibleFrom e.states e.highestCommittedTransaction invalid
        e.states.length (some ent.previous)
      baseState != current

/-- `commitTransaction`: check every mutated state for a colliding update;
on a collision abort and rethrow `Merge error` (the abort's effects remain, as
in the source's `catch`).  Otherwise release the lifecycle entry, advance the
watermark only when the committing number is strictly greater, mark the frame
`committed`, deactivate, and invoke the commit callback with the mutated
list. -/
def commitTransaction (e : Engine) : Except String (List Nat) × Engine :=
  match e.currentTransaction with
  | none => (.error "No open transaction", e)
  | some t =>
    let baseTransaction := e.currentTransactionNumber - 1
    let invalid := currentInvalid e.openTransactions
    if t.mutated.any (mergeConflict e baseTransaction t.invalid invalid) then
      (.error "Merge error", (abortTransaction e).2)
    else
      let e1 :=
        { e with openTransactions :=
            setSparse e.openTransactions e.currentTransactionNumber none }
      let e2 :=
        if e.currentTransactionNumber > e.highestCommittedTransaction then
          { e1 with highestCommittedTransaction := e.currentTransactionNumber }
        else
          { e1 with currentTransactionNumber := e.highestCommittedTransaction }
      let e3 :=
        { e2 with
          frames := modifyIdx e2.frames t.frame fun f => { f with state := .committed },
          currentTransaction := none }
      let e4 :=
        if ((e.frames[t.frame]?).map Frame.hasOncommit).getD false then
          { e3 with events := e3.events ++ [.commitCalled t.frame t.mutated] }
        else e3
      (.ok t.mutated, e4)

/-- One engine call, as issued by a collaborator. -/
inductive Op where
  | begin (hasOncommit hasOnabort : Bool)
  | pause
  | restore (pid : Nat)
  | abort
  | commit
  | bind (v : Nat)
  | read (eid : Nat)
  | write (eid : Nat)
  | set (eid : Nat) (v : Nat)
deriving DecidableEq, Repr

/-- The state reached after one call (errors thrown leave their partial
effects, as in JavaScript). -/
def step (e : Engine) : Op → Engine
  | .begin c a => (beginTransaction e c a).2
  | .pause => (pauseTransaction e).2
  | .restore pid => (restoreTransaction e pid).2
  | .abort => (abortTransaction e).2
  | .commit => (commitTransaction e).2
  | .bind v => (bindState e v).2
  | .read eid => ensureReadable e eid
  | .write eid => (ensureWritable e eid).2
  | .set eid v => (setData e eid v).2

/-- The state reached after a sequence of calls. -/
def run (e : Engine) : List Op → Engine
  | [] => e
  | op :: ops => run (step e op) ops

/-- `(previous._min || 0)` of the node named `sid`, as the splice walk reads
it. -/
def minOf (states : List StateNode) (sid : Nat) : Nat :=
  (((states[sid]?).getD default).min).getD 0

/-- The chain-order property: consecutive nodes have non-increasing `_min`
(the spec's "ordered by `min` descending"). -/
def sortedByMinDesc (states : List StateNode) : List Nat → Bool
  | [] => true
  | [_] => true
  | a :: b :: rest =>
    decide (minOf states b ≤ minOf states a) && sortedByMinDesc states (b :: rest)

/-- Whether the node named `sid` has its retirement point set. -/
def maxStamped (e : Engine) (sid : Nat) : Bool :=
  match e.states[sid]? with
  | none => false
  | some n => n.max.isSome

/-- Whether a call returned normally. -/
def isOk : Except String α → Bool
  | .ok _ => true
  | .error _ => false

/-- Relates an entity's chain (as the list of its nodes, newest first) after a
transaction `n` wrote it and aborted to the chain before `n`'s first write:
nodes created by `n` (their `_min` is `n`) are interleaved in, and the
surviving nodes keep their `_min` and payload, except that an unset `_max`
may now carry `n` (set when `n` superseded that node). -/
inductive AbortResidue (n : Nat) : List StateNode → List StateNode → Prop
  | nil : AbortResidue n [] []
  | inserted {a : StateNode} {l l₀ : List StateNode} (h : a.min = some n)
      (t : AbortResidue n l l₀) : AbortResidue n (a :: l) l₀
  | kept {a b : StateNode} {l l₀ : List StateNode} (hmin : a.min = b.min)
      (hmax : a.max = b.max ∨ (a.max = some n ∧ b.max = none))
      (hdata : a.data = b.data) (t : AbortResidue n l l₀) :
      AbortResidue n (a :: l) (b :: l₀)

/-- Chain-level shield invariant: every retirement stamp `some k` carried by a
node has the retiring transaction's own node (creation point `k`) somewhere
closer to the head.  `makeWritable` establishes this each time it sets a
stamp, because it splices the retirer's clone in front of the node it
retires, and no operation ever removes a node or changes its `_min`. -/
def shieldInvB (X : List StateNode) : Bool :=
  (List.range X.length).all fun i =>
    match (X.getD i default).max with
    | none => true
    | some k => (List.range i).any fun j => (X.getD j default).min == some k

/-!  Helper lemmas about the sparse-array and heap primitives.  -/

theorem lt_of_getElem?_some {l : List α} {i : Nat} {a : α} (h : l[i]? = some a) :
    i < l.length :=
  (List.getElem?_eq_some.mp h).1

theorem setSparse_length (l : List (Option α)) (i : Nat) (v : Option α) :
    (setSparse l i v).length = max l.length (i + 1) := by
  simp [setSparse]
  omega

theorem getSparse_setSparse (l : List (Option α)) (i j : Nat) (v : Option α) :
    getSparse (setSparse l i v) j = if j = i then v else getSparse l j := by
  unfold getSparse setSparse
  rw [List.getD_eq_getElem?_getD, List.getD_eq_getElem?_getD]
  by_cases hj : j = i
  · subst hj
    rw [List.getElem?_set_self (by simp; omega)]
    simp
  · rw [List.getElem?_set_ne (fun hh => hj hh.symm), if_neg hj]
    by_cases hlt : j < l.length
    · rw [List.getElem?_append_left hlt]
    · have hl : l[j]? = none := List.getElem?_eq_none_iff.mpr (by omega)
      rw [hl]
      by_cases hpad : j < l.length + (i + 1 - l.length)
      · rw [List.getElem?_append_right (by omega),
          List.getElem?_replicate_of_lt (by omega)]
        rfl
      · rw [List.getElem?_eq_none_iff.mpr
          (by simp only [List.length_append, List.length_replicate]; omega)]

theorem modifyIdx_length (l : List α) (i : Nat) (f : α → α) :
    (modifyIdx l i f).length = l.length := by
  unfold modifyIdx
  cases l[i]? <;> simp

theorem modifyIdx_getElem? (l : List α) (i j : Nat) (f : α → α) :
    (modifyIdx l i f)[j]? = if j = i then (l[i]?).map f else l[j]? := by
  unfold modifyIdx
  cases h : l[i]? with
  | none =>
    by_cases hj : j = i
    · subst hj
      simp [h]
    · simp [hj]
  | some a =>
    by_cases hj : j = i
    · subst hj
      simp [List.getElem?_set_self (lt_of_getElem?_some h), h]
    · simp [List.getElem?_set_ne (fun hh => hj hh.symm), hj]

/-!  The traversal lemmas behind the visibility resolver.  -/

theorem chainFrom_none (states : List StateNode) (fuel : Nat) :
    chainFrom states fuel none = some [] := by
  cases fuel <;> rfl

theorem chainFrom_mono {states : List StateNode} {fuel fuel' : Nat} {p : Option Nat}
    {l : List Nat} (h : chainFrom states fuel p = some l) (hle : fuel ≤ fuel') :
    chainFrom states fuel' p = some l := by
  induction fuel generalizing fuel' p l with
  | zero =>
    cases p with
    | none =>
      rw [chainFrom_none] at h
      rw [chainFrom_none]
      exact h
    | some sid => simp [chainFrom] at h
  | succ fuel ih =>
    cases p with
    | none =>
      rw [chainFrom_none] at h
      rw [chainFrom_none]
      exact h
    | some sid =>
      obtain ⟨fuel'', rfl⟩ : ∃ k, fuel' = k + 1 :=
        ⟨fuel' - 1, by omega⟩
      cases hn : states[sid]? with
      | none => simp [chainFrom, hn] at h
      | some n =>
        simp only [chainFrom, hn] at h ⊢
        cases hc : chainFrom states fuel n.previous with
        | none => simp [hc] at h
        | some l' =>
          rw [ih hc (by omega)]
          rw [hc] at h
          exact h

theorem chainFrom_mem_lt {states : List StateNode} {fuel : Nat} {p : Option Nat}
    {l : List Nat} (h : chainFrom states fuel p = some l) :
    ∀ s ∈ l, s < states.length := by
  induction fuel generalizing p l with
  | zero =>
    cases p with
    | none =>
      rw [chainFrom_none] at h
      cases h
      simp
    | some sid => simp [chainFrom] at h
  | succ fuel ih =>
    cases p with
    | none =>
      rw [chainFrom_none] at h
      cases h
      simp
    | some sid =>
      cases hn : states[sid]? with
      | none => simp [chainFrom, hn] at h
      | some n =>
        simp only [chainFrom, hn] at h
        cases hc : chainFrom states fuel n.previous with
        | none => simp [hc] at h
        | some l' =>
          rw [hc] at h
          simp only [Option.map_some'] at h
          cases h
          intro s hs
          rcases List.mem_cons.mp hs with rfl | hs
          · exact lt_of_getElem?_some hn
          · exact ih hc s hs

theorem chainFrom_head {states : List StateNode} {fuel : Nat} {p : Option Nat}
    {l : List Nat} (h : chainFrom states fuel p = some l) : p = l.head? := by
  cases p with
  | none =>
    rw [chainFrom_none] at h
    cases h
    rfl
  | some sid =>
    cases fuel with
    | zero => simp [chainFrom] at h
    | succ fuel =>
      cases hn : states[sid]? with
      | none => simp [chainFrom, hn] at h
      | some n =>
        simp only [chainFrom, hn] at h
        cases hc : chainFrom states fuel n.previous with
        | none => simp [hc] at h
        | some l' =>
          rw [hc] at h
          simp only [Option.map_some'] at h
          cases h
          rfl

theorem findVisible_eq_find? (states : List StateNode) (asOf : Nat)
    (invalid : TransactionSet) :
    ∀ (fuel : Nat) (start : Option Nat) (l : List Nat),
      chainFrom states fuel start = some l →
      findVisibleFrom states asOf invalid fuel start =
        l.find? (visibleAt states asOf invalid) := by
  intro fuel
  induction fuel with
  | zero =>
    intro start l h
    cases start with
    | none =>
      rw [chainFrom_none] at h
      cases h
      rfl
    | some sid => simp [chainFrom] at h
  | succ fuel ih =>
    intro start l h
    cases start with
    | none =>
      rw [chainFrom_none] at h
      cases h
      rfl
    | some sid =>
      cases hn : states[sid]? with
      | none => simp [chainFrom, hn] at h
      | some n =>
        simp only [chainFrom, hn] at h
        cases hc : chainFrom states fuel n.previous with
        | none => simp [hc] at h
        | some l' =>
          rw [hc] at h
          simp only [Option.map_some'] at h
          cases h
          simp only [findVisibleFrom, hn]
          have hv : visibleAt states asOf invalid sid = nodeVisible n asOf invalid := by
            unfold visibleAt
            rw [hn]
          rw [List.find?, hv]
          cases hvis : nodeVisible n asOf invalid with
          | true => rfl
          | false =>
            simp only [Bool.false_eq_true, if_false]
            exact ih n.previous l' hc

/-- C1: `findVisible` returns the first node reached walking backward through
`previous` links whose creation point is visible and whose retirement point is
unset or not visible, where a transaction number is visible iff it is defined,
at most `asOf`, and not in the invalid set. -/
theorem c1_findVisible_first_visible :
    (∀ (id : Option Nat) (asOf : Nat) (invalid : TransactionSet),
        isValid id asOf invalid = true ↔
          ∃ i, id = some i ∧ i ≤ asOf ∧ invalid.contains i = false) ∧
    (∀ (states : List StateNode) (asOf : Nat) (invalid : TransactionSet)
        (fuel : Nat) (start : Option Nat) (l : List Nat),
        chainFrom states fuel start = some l →
        findVisibleFrom states asOf invalid fuel start =
          l.find? (visibleAt states asOf invalid)) := by
  refine ⟨?_, findVisible_eq_find?⟩
  intro id asOf invalid
  cases id with
  | none => simp [isValid]
  | some i =>
    simp only [isValid]
    by_cases h : i ≤ asOf
    · cases hc : invalid.contains i <;>
        simp [h, hc, List.elem_iff] <;>
        simpa [List.elem_iff] using hc
    · simp [h]

/-- Witness for C1 on the chain built by the paused-transaction scenario. -/
theorem c1_witness :
    chainFrom (run Engine.init [Op.begin false false, Op.bind 499, Op.commit,
        Op.begin false false, Op.write 0, Op.pause, Op.begin false false,
        Op.write 0]).states 3 (some 2) = some [2, 1, 0] ∧
    findVisibleFrom (run Engine.init [Op.begin false false, Op.bind 499, Op.commit,
        Op.begin false false, Op.write 0, Op.pause, Op.begin false false,
        Op.write 0]).states 3 [2] 3 (some 2) =
      [2, 1, 0].find? (visibleAt (run Engine.init [Op.begin false false, Op.bind 499,
        Op.commit, Op.begin false false, Op.write 0, Op.pause, Op.begin false false,
        Op.write 0]).states 3 [2]) :=
  ⟨by decide,
   c1_findVisible_first_visible.2 _ 3 [2] 3 (some 2) [2, 1, 0] (by decide)⟩

/-- C3 counterexample: after a transaction writes an entity and aborts, the
chain is not as it was before the write: the aborted snapshot stays spliced in
and the old head's `_max` now carries the aborted number. -/
theorem c3_abort_chain_changed :
    (run Engine.init [Op.begin false false, Op.bind 7, Op.commit]).states =
      [{ min := some 1, max := none, previous := none, entity := none, data := 7 }] ∧
    (run Engine.init [Op.begin false false, Op.bind 7, Op.commit,
        Op.begin false false, Op.set 0 9, Op.abort]).states =
      [{ min := some 1, max := some 2, previous := none, entity := none, data := 7 },
       { min := some 2, max := none, previous := some 0, entity := some 0, data := 9 }] ∧
    (run Engine.init [Op.begin false false, Op.bind 7, Op.commit,
        Op.begin false false, Op.set 0 9, Op.abort]).states ≠
      (run Engine.init [Op.begin false false, Op.bind 7, Op.commit]).states := by
  refine ⟨by decide, by decide, by decide⟩

/-- C5 counterexample: a snapshot's retirement point, already set to 2 by a
paused transaction, is overwritten to 3 when transaction 3 retires the same
snapshot again. -/
theorem c5_retirement_overwritten :
    ((run Engine.init [Op.begin false false, Op.bind 10, Op.commit,
        Op.begin false false, Op.write 0, Op.pause]).states[0]?).map StateNode.max =
      some (some 2) ∧
    ((run Engine.init [Op.begin false false, Op.bind 10, Op.commit,
        Op.begin false false, Op.write 0, Op.pause, Op.begin false false,
        Op.write 0]).states[0]?).map StateNode.max = some (some 3) := by
  refine ⟨by decide, by decide⟩

/-- C6 counterexample: in the same reachable state, entity 0's chain is
`[2, 1, 0]` and both node 1 and node 2 have `_max` unset. -/
theorem c6_two_unretired :
    ((run Engine.init [Op.begin false false, Op.bind 10, Op.commit,
        Op.begin false false, Op.write 0, Op.pause, Op.begin false false,
        Op.write 0]).entities[0]?).map EntityObj.previous = some 2 ∧
    chainFrom (run Engine.init [Op.begin false false, Op.bind 10, Op.commit,
        Op.begin false false, Op.write 0, Op.pause, Op.begin false false,
        Op.write 0]).states 3 (some 2) = some [2, 1, 0] ∧
    ([2, 1, 0].countP fun sid =>
      (((run Engine.init [Op.begin false false, Op.bind 10, Op.commit,
          Op.begin false false, Op.write 0, Op.pause, Op.begin false false,
          Op.write 0]).states[sid]?).getD default).max.isNone) = 2 := by
  refine ⟨by decide, by decide, by decide⟩

/-- C8: the abort path never invokes the abort callback even when one was
supplied (`if (frame.onabort) frame.onabort;` evaluates without calling),
while the commit path does invoke the commit callback: the code contradicts
its own documentation of `onabort` ("Invoked if the transaction is
aborted"). -/
theorem c8_onabort_never_called :
    (run Engine.init [Op.begin false true, Op.abort]).frames =
      [{ state := .aborted, hasOncommit := false, hasOnabort := true }] ∧
    (run Engine.init [Op.begin false true, Op.abort]).events = [] ∧
    (run Engine.init [Op.begin true false, Op.commit]).events =
      [Event.commitCalled 0 []] := by
  refine ⟨by decide, by decide, by decide⟩

/-- C9: in a reachable state (transaction 1 binds the entity and pauses,
transaction 2 starts with 1 in its invalid set), `findVisible` walks off the
end of the chain and `ensureReadable` caches `undefined` in the entity's
state pointer without signalling an error. -/
theorem c9_resolution_walks_off :
    (run Engine.init [Op.begin false false, Op.bind 5, Op.pause,
        Op.begin false false]).currentTransaction =
      some { number := 2, mutated := [], invalid := [1], frame := 1 } ∧
    findVisibleFrom (run Engine.init [Op.begin false false, Op.bind 5, Op.pause,
        Op.begin false false]).states 2 [1] 1 (some 0) = none ∧
    (run Engine.init [Op.begin false false, Op.bind 5, Op.pause,
        Op.begin false false, Op.read 0]).entities =
      [{ transaction := 2, previous := 0, state := none }] := by
  refine ⟨by decide, by decide, by decide⟩

/-- C2: when some mutated entity's baseline snapshot differs from the snapshot
visible at the commit watermark, `commitTransaction` surfaces the merge error
with the transaction already aborted (lifecycle entry `aborted`, frame
`aborted`, active slot cleared); otherwise commit returns the mutation log. -/
theorem c2_commit_conflict_aborts (e : Engine) (t : Txn)
    (ht : e.currentTransaction = some t) (hm : t.mutated ≠ [])
    (hf : t.frame < e.frames.length) :
    (t.mutated.any (mergeConflict e (e.currentTransactionNumber - 1) t.invalid
        (currentInvalid e.openTransactions)) = true →
      (commitTransaction e).1 = .error "Merge error" ∧
      getSparse (commitTransaction e).2.openTransactions e.currentTransactionNumber =
        some .aborted ∧
      ((commitTransaction e).2.frames[t.frame]?).map Frame.state = some .aborted ∧
      (commitTransaction e).2.currentTransaction = none) ∧
    (t.mutated.any (mergeConflict e (e.currentTransactionNumber - 1) t.invalid
        (currentInvalid e.openTransactions)) = false →
      (commitTransaction e).1 = .ok t.mutated) := by
  obtain ⟨fr, hfr⟩ : ∃ fr, e.frames[t.frame]? = some fr :=
    ⟨e.frames[t.frame], List.getElem?_eq_getElem hf⟩
  constructor
  · intro hc
    unfold commitTransaction abortTransaction
    rw [ht]
    simp [hc, getSparse_setSparse, modifyIdx_getElem?, hfr]
  · intro hc
    unfold commitTransaction
    rw [ht]
    simp [hc]

/-- Witness for C2: transaction 2 pauses, transaction 3 writes entity 0 and
commits, transaction 2 resumes, writes entity 0, and its commit aborts with
the merge error. -/
theorem c2_witness :
    (commitTransaction (run Engine.init [Op.begin false false, Op.bind 7, Op.commit,
        Op.begin false false, Op.pause, Op.begin false false, Op.set 0 8, Op.commit,
        Op.restore 0, Op.set 0 9])).1 = .error "Merge error" ∧
    getSparse (commitTransaction (run Engine.init [Op.begin false false, Op.bind 7,
        Op.commit, Op.begin false false, Op.pause, Op.begin false false, Op.set 0 8,
        Op.commit, Op.restore 0, Op.set 0 9])).2.openTransactions
      (run Engine.init [Op.begin false false, Op.bind 7, Op.commit,
        Op.begin false false, Op.pause, Op.begin false false, Op.set 0 8, Op.commit,
        Op.restore 0, Op.set 0 9]).currentTransactionNumber = some .aborted ∧
    ((commitTransaction (run Engine.init [Op.begin false false, Op.bind 7, Op.commit,
        Op.begin false false, Op.pause, Op.begin false false, Op.set 0 8, Op.commit,
        Op.restore 0, Op.set 0 9])).2.frames[1]?).map Frame.state = some .aborted ∧
    (commitTransaction (run Engine.init [Op.begin false false, Op.bind 7, Op.commit,
        Op.begin false false, Op.pause, Op.begin false false, Op.set 0 8, Op.commit,
        Op.restore 0, Op.set 0 9])).2.currentTransaction = none :=
  (c2_commit_conflict_aborts _ { number := 2, mutated := [2], invalid := [], frame := 1 }
    (by decide) (by decide) (by decide)).1 (by decide)

/-!  Per-operation frame lemmas: which module-level variables each call leaves
untouched.  -/

theorem ensureReadable_parts (e : Engine) (eid : Nat) :
    (ensureReadable e eid).highestTransaction = e.highestTransaction ∧
    (ensureReadable e eid).highestCommittedTransaction = e.highestCommittedTransaction ∧
    (ensureReadable e eid).currentTransactionNumber = e.currentTransactionNumber ∧
    (ensureReadable e eid).currentTransaction = e.currentTransaction ∧
    (ensureReadable e eid).openTransactions = e.openTransactions ∧
    (ensureReadable e eid).pausedTransactions = e.pausedTransactions ∧
    (ensureReadable e eid).states = e.states ∧
    (ensureReadable e eid).frames = e.frames ∧
    (ensureReadable e eid).events = e.events := by
  unfold ensureReadable makeReadable
  repeat' split
  all_goals simp_all

theorem makeWritable_parts (e : Engine) (eid : Nat) :
    (makeWritable e eid).2.highestTransaction = e.highestTransaction ∧
    (makeWritable e eid).2.highestCommittedTransaction = e.highestCommittedTransaction ∧
    (makeWritable e eid).2.currentTransactionNumber = e.currentTransactionNumber ∧
    (makeWritable e eid).2.openTransactions = e.openTransactions ∧
    (makeWritable e eid).2.pausedTransactions = e.pausedTransactions ∧
    (makeWritable e eid).2.frames = e.frames ∧
    (makeWritable e eid).2.events = e.events := by
  have hp := ensureReadable_parts e eid
  unfold makeWritable
  repeat' split
  all_goals try simp_all
  all_goals repeat' split
  all_goals simp_all

theorem ensureWritable_parts (e : Engine) (eid : Nat) :
    (ensureWritable e eid).2.highestTransaction = e.highestTransaction ∧
    (ensureWritable e eid).2.highestCommittedTransaction = e.highestCommittedTransaction ∧
    (ensureWritable e eid).2.currentTransactionNumber = e.currentTransactionNumber ∧
    (ensureWritable e eid).2.openTransactions = e.openTransactions ∧
    (ensureWritable e eid).2.pausedTransactions = e.pausedTransactions ∧
    (ensureWritable e eid).2.frames = e.frames ∧
    (ensureWritable e eid).2.events = e.events := by
  have hp := makeWritable_parts e eid
  unfold ensureWritable
  rcases he : e.entities[eid]? with _ | ent <;> simp only [he]
  · simp
  · split
    · exact hp
    · simp

theorem setData_parts (e : Engine) (eid v : Nat) :
    (setData e eid v).2.highestTransaction = e.highestTransaction ∧
    (setData e eid v).2.highestCommittedTransaction = e.highestCommittedTransaction ∧
    (setData e eid v).2.currentTransactionNumber = e.currentTransactionNumber ∧
    (setData e eid v).2.openTransactions = e.openTransactions ∧
    (setData e eid v).2.pausedTransactions = e.pausedTransactions ∧
    (setData e eid v).2.frames = e.frames ∧
    (setData e eid v).2.events = e.events := by
  have hp := ensureWritable_parts e eid
  unfold setData
  repeat' split
  all_goals simp_all

theorem beginTransaction_hct (e : Engine) (c a : Bool) :
    (beginTransaction e c a).2.highestCommittedTransaction =
      e.highestCommittedTransaction := by
  unfold beginTransaction
  split <;> rfl

theorem pauseTransaction_hct (e : Engine) :
    (pauseTransaction e).2.highestCommittedTransaction =
      e.highestCommittedTransaction := by
  unfold pauseTransaction
  split <;> rfl

theorem restoreTransaction_hct (e : Engine) (pid : Nat) :
    (restoreTransaction e pid).2.highestCommittedTransaction =
      e.highestCommittedTransaction := by
  unfold restoreTransaction
  repeat' split
  all_goals rfl

theorem abortTransaction_hct (e : Engine) :
    (abortTransaction e).2.highestCommittedTransaction =
      e.highestCommittedTransaction := by
  unfold abortTransaction
  split <;> rfl

theorem commitTransaction_hct (e : Engine) :
    (commitTransaction e).2.highestCommittedTransaction =
      (if isOk (commitTransaction e).1 &&
          decide (e.highestCommittedTransaction < e.currentTransactionNumber)
       then e.currentTransactionNumber
       else e.highestCommittedTransaction) := by
  unfold commitTransaction
  rcases h : e.currentTransaction with _ | t
  · rfl
  · simp only
    split
    · rw [abortTransaction_hct]
      rfl
    · simp only [isOk, Bool.true_and]
      by_cases hlt : e.highestCommittedTransaction < e.currentTransactionNumber <;>
        simp only [gt_iff_lt, hlt, decide_eq_true_eq, decide_eq_false_iff_not, if_true,
          if_false, decide_True, decide_False, Bool.false_eq_true] <;>
        split <;> rfl

theorem step_hct_mono (e : Engine) (op : Op) :
    e.highestCommittedTransaction ≤ (step e op).highestCommittedTransaction := by
  cases op with
  | begin c a => rw [step, beginTransaction_hct]
  | pause => rw [step, pauseTransaction_hct]
  | restore pid => rw [step, restoreTransaction_hct]
  | abort => rw [step, abortTransaction_hct]
  | commit =>
    rw [step, commitTransaction_hct]
    split
    · rename_i hc
      have := of_decide_eq_true (Bool.and_elim_right hc)
      omega
    · exact Nat.le_refl _
  | bind v => exact Nat.le_of_eq rfl
  | read eid => exact Nat.le_of_eq (ensureReadable_parts e eid).2.1.symm
  | write eid => exact Nat.le_of_eq (ensureWritable_parts e eid).2.1.symm
  | set eid v => exact Nat.le_of_eq (setData_parts e eid v).2.1.symm

theorem run_hct_mono (e : Engine) (ops : List Op) :
    e.highestCommittedTransaction ≤ (run e ops).highestCommittedTransaction := by
  induction ops generalizing e with
  | nil => exact Nat.le_refl _
  | cons op ops ih => exact Nat.le_trans (step_hct_mono e op) (ih (step e op))

/-- C4: the commit watermark never decreases across any sequence of engine
calls, and `commitTransaction` sets it to the committing transaction's number
exactly when the commit succeeds and that number is strictly greater than the
current watermark, leaving it unchanged otherwise. -/
theorem c4_watermark_monotone (e : Engine) (ops : List Op) :
    e.highestCommittedTransaction ≤ (run e ops).highestCommittedTransaction ∧
    (commitTransaction e).2.highestCommittedTransaction =
      (if isOk (commitTransaction e).1 &&
          decide (e.highestCommittedTransaction < e.currentTransactionNumber)
       then e.currentTransactionNumber
       else e.highestCommittedTransaction) :=
  ⟨run_hct_mono e ops, commitTransaction_hct e⟩

/-- Witness for C4 on a concrete interleaving: transaction 3 commits first
(watermark 1 → 3), then paused transaction 2 commits without moving the
watermark back. -/
theorem c4_witness :
    (run Engine.init [Op.begin false false, Op.bind 7, Op.commit,
        Op.begin false false, Op.pause, Op.begin false false, Op.commit,
        Op.restore 0]).highestCommittedTransaction ≤
      (run (run Engine.init [Op.begin false false, Op.bind 7, Op.commit,
        Op.begin false false, Op.pause, Op.begin false false, Op.commit,
        Op.restore 0]) [Op.commit]).highestCommittedTransaction ∧
    (commitTransaction (run Engine.init [Op.begin false false, Op.bind 7, Op.commit,
        Op.begin false false, Op.pause, Op.begin false false, Op.commit,
        Op.restore 0])).2.highestCommittedTransaction =
      (if isOk (commitTransaction (run Engine.init [Op.begin false false, Op.bind 7,
          Op.commit, Op.begin false false, Op.pause, Op.begin false false, Op.commit,
          Op.restore 0])).1 &&
          decide ((run Engine.init [Op.begin false false, Op.bind 7, Op.commit,
            Op.begin false false, Op.pause, Op.begin false false, Op.commit,
            Op.restore 0]).highestCommittedTransaction <
          (run Engine.init [Op.begin false false, Op.bind 7, Op.commit,
            Op.begin false false, Op.pause, Op.begin false false, Op.commit,
            Op.restore 0]).currentTransactionNumber)
       then (run Engine.init [Op.begin false false, Op.bind 7, Op.commit,
          Op.begin false false, Op.pause, Op.begin false false, Op.commit,
          Op.restore 0]).currentTransactionNumber
       else (run Engine.init [Op.begin false false, Op.bind 7, Op.commit,
          Op.begin false false, Op.pause, Op.begin false false, Op.commit,
          Op.restore 0]).highestCommittedTransaction) :=
  c4_watermark_monotone _ [Op.commit]

/-!  The paused-transaction table: slot ids are never reused.  -/

theorem getSparse_append_lt (l : List (Option α)) (x : Option α) (i : Nat)
    (h : i < l.length) : getSparse (l ++ [x]) i = getSparse l i := by
  unfold getSparse
  rw [List.getD_eq_getElem?_getD, List.getD_eq_getElem?_getD,
    List.getElem?_append_left h]

theorem beginTransaction_paused (e : Engine) (c a : Bool) :
    (beginTransaction e c a).2.pausedTransactions = e.pausedTransactions := by
  unfold beginTransaction
  split <;> rfl

theorem abortTransaction_paused (e : Engine) :
    (abortTransaction e).2.pausedTransactions = e.pausedTransactions := by
  unfold abortTransaction
  split <;> rfl

theorem commitTransaction_paused (e : Engine) :
    (commitTransaction e).2.pausedTransactions = e.pausedTransactions := by
  unfold commitTransaction
  dsimp only
  repeat' split
  all_goals first
    | rfl
    | rw [abortTransaction_paused]

theorem pauseTransaction_paused (e : Engine) :
    (pauseTransaction e).2.pausedTransactions = e.pausedTransactions ∨
    (pauseTransaction e).2.pausedTransactions =
      e.pausedTransactions ++ [e.currentTransaction] := by
  unfold pauseTransaction
  rcases h : e.currentTransaction with _ | t
  · left
    rfl
  · right
    rfl

theorem restoreTransaction_paused (e : Engine) (pid : Nat) :
    (restoreTransaction e pid).2.pausedTransactions = e.pausedTransactions ∨
    (restoreTransaction e pid).2.pausedTransactions =
      setSparse e.pausedTransactions pid none := by
  unfold restoreTransaction
  repeat' split
  all_goals first
    | left; rfl
    | right; rfl

theorem step_paused_len_mono (e : Engine) (op : Op) :
    e.pausedTransactions.length ≤ (step e op).pausedTransactions.length := by
  cases op with
  | begin c a => rw [step, beginTransaction_paused]
  | pause =>
    rcases pauseTransaction_paused e with h | h <;> rw [step, h]
    simp
  | restore pid =>
    rcases restoreTransaction_paused e pid with h | h <;> rw [step, h]
    rw [setSparse_length]
    omega
  | abort => rw [step, abortTransaction_paused]
  | commit => rw [step, commitTransaction_paused]
  | bind v => exact Nat.le_refl _
  | read eid => rw [step, (ensureReadable_parts e eid).2.2.2.2.2.1]
  | write eid => rw [step, (ensureWritable_parts e eid).2.2.2.2.1]
  | set eid v => rw [step, (setData_parts e eid v).2.2.2.2.1]

theorem run_paused_len_mono (e : Engine) (ops : List Op) :
    e.pausedTransactions.length ≤ (run e ops).pausedTransactions.length := by
  induction ops generalizing e with
  | nil => exact Nat.le_refl _
  | cons op ops ih => exact Nat.le_trans (step_paused_len_mono e op) (ih (step e op))

theorem step_paused_slot_none (e : Engine) (op : Op) (pid : Nat)
    (hlt : pid < e.pausedTransactions.length)
    (h : getSparse e.pausedTransactions pid = none) :
    getSparse (step e op).pausedTransactions pid = none := by
  cases op with
  | begin c a => rw [step, beginTransaction_paused]; exact h
  | pause =>
    rcases pauseTransaction_paused e with hp | hp <;> rw [step, hp]
    · exact h
    · rw [getSparse_append_lt _ _ _ hlt]
      exact h
  | restore pid' =>
    rcases restoreTransaction_paused e pid' with hp | hp <;> rw [step, hp]
    · exact h
    · rw [getSparse_setSparse]
      split
      · rfl
      · exact h
  | abort => rw [step, abortTransaction_paused]; exact h
  | commit => rw [step, commitTransaction_paused]; exact h
  | bind v => exact h
  | read eid => rw [step, (ensureReadable_parts e eid).2.2.2.2.2.1]; exact h
  | write eid => rw [step, (ensureWritable_parts e eid).2.2.2.2.1]; exact h
  | set eid v => rw [step, (setData_parts e eid v).2.2.2.2.1]; exact h

theorem run_paused_slot_none (e : Engine) (ops : List Op) (pid : Nat)
    (hlt : pid < e.pausedTransactions.length)
    (h : getSparse e.pausedTransactions pid = none) :
    getSparse (run e ops).pausedTransactions pid = none := by
  induction ops generalizing e with
  | nil => exact h
  | cons op ops ih =>
    exact ih (step e op) (Nat.lt_of_lt_of_le hlt (step_paused_len_mono e op))
      (step_paused_slot_none e op pid hlt h)

theorem pauseTransaction_ok_inTransaction (e : Engine) (i : Nat)
    (h : (pauseTransaction e).1 = .ok i) : inTransaction e = true := by
  unfold pauseTransaction at h
  unfold inTransaction
  rcases hc : e.currentTransaction with _ | t
  · rw [hc] at h
    simp at h
  · rfl

theorem pauseTransaction_ok (e : Engine) (h : inTransaction e = true) :
    (pauseTransaction e).1 = .ok e.pausedTransactions.length ∧
    (pauseTransaction e).2.pausedTransactions.length =
      e.pausedTransactions.length + 1 := by
  unfold inTransaction at h
  unfold pauseTransaction
  rcases hc : e.currentTransaction with _ | t
  · rw [hc] at h
    simp at h
  · exact ⟨rfl, by simp⟩

/-- C10: pause ids are the paused-table length, which never shrinks (freed
slots stay holes), so ids strictly increase over the engine's lifetime and a
slot that was restored once stays empty forever; restoring it again fails
with the invalid-paused-transaction error. -/
theorem c10_pause_ids_never_reused (e : Engine) (op : Op) (ops : List Op) (pid : Nat) :
    (e.pausedTransactions.length ≤ (step e op).pausedTransactions.length) ∧
    (inTransaction e = true →
      (pauseTransaction e).1 = .ok e.pausedTransactions.length ∧
      (pauseTransaction e).2.pausedTransactions.length =
        e.pausedTransactions.length + 1) ∧
    (∀ i j, (pauseTransaction e).1 = .ok i →
      (pauseTransaction (run (pauseTransaction e).2 ops)).1 = .ok j → i < j) ∧
    (pid < e.pausedTransactions.length → getSparse e.pausedTransactions pid = none →
      getSparse (run e ops).pausedTransactions pid = none) ∧
    ((restoreTransaction e pid).1 = .ok () →
      getSparse (restoreTransaction e pid).2.pausedTransactions pid = none) ∧
    (inTransaction e = false → getSparse e.pausedTransactions pid = none →
      (restoreTransaction e pid).1 = .error "Invalid paused transaction") := by
  refine ⟨step_paused_len_mono e op, pauseTransaction_ok e, ?_, ?_, ?_, ?_⟩
  · intro i j h1 h2
    have hin : inTransaction e = true := pauseTransaction_ok_inTransaction e i h1
    obtain ⟨ho, hlen⟩ := pauseTransaction_ok e hin
    have hi : i = e.pausedTransactions.length := by
      injection ho.symm.trans h1 with hx
      exact hx.symm
    have hin2 : inTransaction (run (pauseTransaction e).2 ops) = true :=
      pauseTransaction_ok_inTransaction _ j h2
    obtain ⟨ho2, _⟩ := pauseTransaction_ok _ hin2
    have hj : j = (run (pauseTransaction e).2 ops).pausedTransactions.length := by
      injection ho2.symm.trans h2 with hx
      exact hx.symm
    have := run_paused_len_mono (pauseTransaction e).2 ops
    omega
  · intro hlt h
    exact run_paused_slot_none e ops pid hlt h
  · intro h
    unfold restoreTransaction at h ⊢
    split at h
    · simp at h
    · rename_i hin
      rw [if_neg hin]
      split at h
      · simp at h
      · rename_i t hmatch
        split at h
        · simp at h
        · rename_i hcond
          rw [if_neg hcond, getSparse_setSparse]
          simp
  · intro hin h
    unfold restoreTransaction
    unfold inTransaction at hin
    rw [if_neg (by rw [hin]; simp), h]

/-- Witness for C10: slot 0 was paused and restored once; restoring it again
fails with the invalid-paused-transaction error. -/
theorem c10_witness :
    (restoreTransaction (run Engine.init [Op.begin false false, Op.pause,
        Op.restore 0, Op.commit]) 0).1 = .error "Invalid paused transaction" :=
  (c10_pause_ids_never_reused (run Engine.init [Op.begin false false, Op.pause,
      Op.restore 0, Op.commit]) Op.commit [] 0).2.2.2.2.2 (by decide) (by decide)

/-!  Retirement points stay set (though their value can be overwritten).  -/

theorem maxStamped_iff (e : Engine) (sid : Nat) :
    maxStamped e sid = true ↔ ∃ n, e.states[sid]? = some n ∧ n.max.isSome = true := by
  unfold maxStamped
  rcases h : e.states[sid]? with _ | n <;> simp

theorem isSome_max_append {states : List StateNode} {x : StateNode} {sid : Nat}
    (h : ∃ n, states[sid]? = some n ∧ n.max.isSome = true) :
    ∃ n, (states ++ [x])[sid]? = some n ∧ n.max.isSome = true := by
  obtain ⟨n, hn, hmax⟩ := h
  rw [List.getElem?_append_left (lt_of_getElem?_some hn), hn]
  exact ⟨n, rfl, hmax⟩

theorem isSome_max_modifyIdx {states : List StateNode} {i sid : Nat}
    {f : StateNode → StateNode}
    (hf : ∀ n, (f n).max.isSome = true ∨ (f n).max = n.max)
    (h : ∃ n, states[sid]? = some n ∧ n.max.isSome = true) :
    ∃ n, (modifyIdx states i f)[sid]? = some n ∧ n.max.isSome = true := by
  obtain ⟨n, hn, hmax⟩ := h
  rw [modifyIdx_getElem?]
  by_cases hs : sid = i
  · subst hs
    rw [if_pos rfl, hn]
    rcases hf n with hf' | hf'
    · exact ⟨f n, rfl, hf'⟩
    · exact ⟨f n, rfl, by rw [hf']; exact hmax⟩
  · rw [if_neg hs]
    exact ⟨n, hn, hmax⟩

theorem makeWritable_maxStamped (e : Engine) (eid sid : Nat)
    (h : maxStamped e sid = true) : maxStamped (makeWritable e eid).2 sid = true := by
  have hst := (ensureReadable_parts e eid).2.2.2.2.2.2.1
  rw [maxStamped_iff] at h ⊢
  unfold makeWritable
  rcases hct : e.currentTransaction with _ | t
  · exact h
  · dsimp only
    rcases he : (ensureReadable e eid).entities[eid]? with _ | ent
    · rw [hst]
      exact h
    · dsimp only
      rcases hes : ent.state with _ | stid
      · rw [hst]
        exact h
      · dsimp only
        rcases hss : (ensureReadable e eid).states[stid]? with _ | st
        · rw [hst]
          exact h
        · dsimp only
          rcases hw : (spliceWalk (ensureReadable e eid).states
              (ensureReadable e eid).currentTransactionNumber
              (ensureReadable e eid).states.length (some ent.previous)).1.getLast?
            with _ | w
          · dsimp only
            refine isSome_max_modifyIdx (fun n => Or.inl (by simp)) ?_
            rw [hst]
            exact isSome_max_append h
          · dsimp only
            refine isSome_max_modifyIdx (fun n => Or.inl (by simp)) ?_
            refine isSome_max_modifyIdx (fun n => Or.inr (by simp)) ?_
            rw [hst]
            exact isSome_max_append h

theorem ensureWritable_maxStamped (e : Engine) (eid sid : Nat)
    (h : maxStamped e sid = true) : maxStamped (ensureWritable e eid).2 sid = true := by
  unfold ensureWritable
  rcases he : e.entities[eid]? with _ | ent
  · exact h
  · dsimp only
    split
    · exact makeWritable_maxStamped e eid sid h
    · exact h

theorem setData_maxStamped (e : Engine) (eid v sid : Nat)
    (h : maxStamped e sid = true) : maxStamped (setData e eid v).2 sid = true := by
  have hw := ensureWritable_maxStamped e eid sid h
  unfold setData
  rcases hr : ensureWritable e eid with ⟨r, e'⟩
  rw [hr] at hw
  rcases r with msg | u
  · exact hw
  · dsimp only
    rcases he : e'.entities[eid]? with _ | ent
    · exact hw
    · dsimp only
      rcases hes : ent.state with _ | sid'
      · exact hw
      · dsimp only
        rw [maxStamped_iff] at hw ⊢
        exact isSome_max_modifyIdx (fun n => Or.inr (by simp)) hw

theorem maxStamped_congr (e' e : Engine) (hst : e'.states = e.states) (sid : Nat) :
    maxStamped e' sid = maxStamped e sid := by
  unfold maxStamped
  rw [hst]

theorem beginTransaction_states (e : Engine) (c a : Bool) :
    (beginTransaction e c a).2.states = e.states := by
  unfold beginTransaction
  split <;> rfl

theorem pauseTransaction_states (e : Engine) :
    (pauseTransaction e).2.states = e.states := by
  unfold pauseTransaction
  rcases h : e.currentTransaction with _ | t <;> rfl

theorem restoreTransaction_states (e : Engine) (pid : Nat) :
    (restoreTransaction e pid).2.states = e.states := by
  unfold restoreTransaction
  repeat' split
  all_goals rfl

theorem abortTransaction_states (e : Engine) :
    (abortTransaction e).2.states = e.states := by
  unfold abortTransaction
  split <;> rfl

theorem commitTransaction_states (e : Engine) :
    (commitTransaction e).2.states = e.states := by
  unfold commitTransaction
  dsimp only
  repeat' split
  all_goals first
    | rfl
    | rw [abortTransaction_states]

theorem step_maxStamped (e : Engine) (op : Op) (sid : Nat)
    (h : maxStamped e sid = true) : maxStamped (step e op) sid = true := by
  cases op with
  | begin c a =>
    rw [step, maxStamped_congr _ e (beginTransaction_states e c a)]
    exact h
  | pause =>
    rw [step, maxStamped_congr _ e (pauseTransaction_states e)]
    exact h
  | restore pid =>
    rw [step, maxStamped_congr _ e (restoreTransaction_states e pid)]
    exact h
  | abort =>
    rw [step, maxStamped_congr _ e (abortTransaction_states e)]
    exact h
  | commit =>
    rw [step, maxStamped_congr _ e (commitTransaction_states e)]
    exact h
  | bind v =>
    rw [maxStamped_iff] at h ⊢
    exact isSome_max_append h
  | read eid =>
    rw [step, maxStamped_congr _ e (ensureReadable_parts e eid).2.2.2.2.2.2.1]
    exact h
  | write eid => exact ensureWritable_maxStamped e eid sid h
  | set eid v => exact setData_maxStamped e eid v sid h

/-- C5 amended: once a snapshot's retirement point has been set it is never
cleared again, but its value can still be overwritten: `makeWritable` stamps
the resolved readable snapshot's `_max` with the current transaction number
even when that snapshot was already retired by a still-open or aborted
transaction. -/
theorem c5_retirement_stays_set (e : Engine) (ops : List Op) (sid : Nat)
    (h : maxStamped e sid = true) : maxStamped (run e ops) sid = true := by
  induction ops generalizing e with
  | nil => exact h
  | cons op ops ih => exact ih (step e op) (step_maxStamped e op sid h)

/-- Witness for C5: node 0's retirement point, set to 2, remains set (value 3)
after transaction 3 writes the entity again. -/
theorem c5_witness :
    maxStamped (run (run Engine.init [Op.begin false false, Op.bind 10, Op.commit,
      Op.begin false false, Op.write 0, Op.pause])
      [Op.begin false false, Op.write 0]) 0 = true :=
  c5_retirement_stays_set _ [Op.begin false false, Op.write 0] 0 (by decide)

/-!  The snapshot created by a write has its retirement point unset.  -/

theorem spliceWalk_mem_lt (states : List StateNode) (ctn : Nat) :
    ∀ (fuel : Nat) (p : Option Nat) (w : Nat),
      w ∈ (spliceWalk states ctn fuel p).1 → w < states.length := by
  intro fuel
  induction fuel with
  | zero =>
    intro p w hw
    cases p with
    | none => simp [spliceWalk] at hw
    | some sid => simp [spliceWalk] at hw
  | succ fuel ih =>
    intro p w hw
    cases p with
    | none => simp [spliceWalk] at hw
    | some sid =>
      rcases hn : states[sid]? with _ | n
      · simp [spliceWalk, hn] at hw
      · simp only [spliceWalk, hn] at hw
        split at hw
        · rcases List.mem_cons.mp hw with rfl | hw
          · exact lt_of_getElem?_some hn
          · exact ih _ w hw
        · simp at hw

theorem ensureWritable_cases (e : Engine) (eid : Nat) :
    ensureWritable e eid = makeWritable e eid ∨ (ensureWritable e eid).2 = e := by
  unfold ensureWritable
  repeat' split
  all_goals try (first | (left; rfl) | (right; rfl))
  all_goals dsimp only
  all_goals split
  all_goals first
    | (left; rfl)
    | (right; rfl)

theorem makeWritable_new (e : Engine) (eid : Nat)
    (hgrow : (makeWritable e eid).2.states.length = e.states.length + 1) :
    ∃ ent, (makeWritable e eid).2.entities[eid]? = some ent ∧
      ent.state = some e.states.length ∧
      ((makeWritable e eid).2.states[e.states.length]?).map StateNode.max =
        some none := by
  have hst := (ensureReadable_parts e eid).2.2.2.2.2.2.1
  unfold makeWritable at hgrow ⊢
  rcases hct : e.currentTransaction with _ | t
  · rw [hct] at hgrow
    dsimp only at hgrow
    omega
  · rw [hct] at hgrow
    try rw [hct]
    dsimp only at hgrow ⊢
    rcases he : (ensureReadable e eid).entities[eid]? with _ | ent
    · rw [he] at hgrow
      dsimp only at hgrow
      rw [hst] at hgrow
      omega
    · rw [he] at hgrow
      try rw [he]
      dsimp only at hgrow ⊢
      rcases hes : ent.state with _ | stid
      · rw [hes] at hgrow
        dsimp only at hgrow
        rw [hst] at hgrow
        omega
      · rw [hes] at hgrow
        try rw [hes]
        dsimp only at hgrow ⊢
        rcases hss : (ensureReadable e eid).states[stid]? with _ | st
        · rw [hss] at hgrow
          dsimp only at hgrow
          rw [hst] at hgrow
          omega
        · try rw [hss]
          dsimp only at hgrow ⊢
          have hstid : stid < e.states.length := by
            have := lt_of_getElem?_some hss
            rwa [hst] at this
          have heid : eid < (ensureReadable e eid).entities.length :=
            lt_of_getElem?_some he
          refine ⟨_, List.getElem?_set_self heid, ?_, ?_⟩
          · dsimp only
            rw [hst]
          · rcases hw : (spliceWalk (ensureReadable e eid).states
                (ensureReadable e eid).currentTransactionNumber
                (ensureReadable e eid).states.length (some ent.previous)).1.getLast?
              with _ | w
            · dsimp only
              rw [modifyIdx_getElem?,
                if_neg (by omega : ¬ e.states.length = stid), hst,
                List.getElem?_concat_length]
              rfl
            · dsimp only
              have hwlt : w < e.states.length := by
                have := spliceWalk_mem_lt (ensureReadable e eid).states
                  (ensureReadable e eid).currentTransactionNumber _ _ w
                  (List.mem_of_mem_getLast? hw)
                rwa [hst] at this
              rw [modifyIdx_getElem?,
                if_neg (by omega : ¬ e.states.length = stid),
                modifyIdx_getElem?,
                if_neg (by omega : ¬ e.states.length = w), hst,
                List.getElem?_concat_length]
              rfl

/-- C6 amended: whenever `ensureWritable` creates a new snapshot, the
entity's cached state is that snapshot and its retirement point is unset (the
newest write is current); uniqueness fails, several snapshots of one chain
can have `_max` unset at once. -/
theorem c6_new_snapshot_unretired (e : Engine) (eid : Nat)
    (hgrow : (ensureWritable e eid).2.states.length = e.states.length + 1) :
    ∃ ent, (ensureWritable e eid).2.entities[eid]? = some ent ∧
      ent.state = some e.states.length ∧
      ((ensureWritable e eid).2.states[e.states.length]?).map StateNode.max =
        some none := by
  rcases ensureWritable_cases e eid with hcase | hcase
  · rw [hcase] at hgrow ⊢
    exact makeWritable_new e eid hgrow
  · rw [hcase] at hgrow
    omega

/-- Witness for C6: transaction 2's write to entity 0 creates node 1 with its
retirement point unset and caches it. -/
theorem c6_witness :
    ∃ ent, (ensureWritable (run Engine.init [Op.begin false false, Op.bind 5,
        Op.commit, Op.begin false false]) 0).2.entities[0]? = some ent ∧
      ent.state = some 1 ∧
      ((ensureWritable (run Engine.init [Op.begin false false, Op.bind 5,
        Op.commit, Op.begin false false]) 0).2.states[1]?).map StateNode.max =
        some none :=
  c6_new_snapshot_unretired _ 0 (by decide)

/-!  Aborted writes leave residue in the chain but never change what resolves. -/

theorem isValid_contains (n asOf : Nat) (invalid : TransactionSet)
    (hinv : invalid.contains n = true) : isValid (some n) asOf invalid = false := by
  simp only [isValid, hinv]
  split <;> rfl

theorem nodeVisible_inserted {a : StateNode} (n asOf : Nat) (invalid : TransactionSet)
    (hinv : invalid.contains n = true) (ha : a.min = some n) :
    nodeVisible a asOf invalid = false := by
  unfold nodeVisible
  rw [ha, isValid_contains n asOf invalid hinv]
  rfl

theorem nodeVisible_kept {a b : StateNode} (n asOf : Nat) (invalid : TransactionSet)
    (hinv : invalid.contains n = true) (hmin : a.min = b.min)
    (hmax : a.max = b.max ∨ (a.max = some n ∧ b.max = none)) :
    nodeVisible a asOf invalid = nodeVisible b asOf invalid := by
  unfold nodeVisible
  rw [hmin]
  rcases hmax with h | ⟨h1, h2⟩
  · rw [h]
  · rw [h1, h2, isValid_contains n asOf invalid hinv]
    rfl

/-- Resolution agrees across an `AbortResidue` pair: inserted nodes are
invisible and kept nodes keep their visibility. -/
theorem abortResidue_find?_eq (n asOf : Nat) (invalid : TransactionSet)
    (hinv : invalid.contains n = true)
    (after before : List StateNode) (h : AbortResidue n after before) :
    (after.find? fun s => nodeVisible s asOf invalid).map (fun s => (s.min, s.data)) =
      (before.find? fun s => nodeVisible s asOf invalid).map
        (fun s => (s.min, s.data)) := by
  induction h with
  | nil => rfl
  | inserted ha t ih =>
    rename_i a l l₀
    have hna : ¬ nodeVisible a asOf invalid = true := by
      rw [nodeVisible_inserted n asOf invalid hinv ha]
      simp
    rw [@List.find?_cons_of_neg _ (fun s => nodeVisible s asOf invalid) a l hna]
    exact ih
  | kept hmin hmax hdata t ih =>
    have hv := nodeVisible_kept n asOf invalid hinv hmin hmax
    rename_i a b l l₀
    cases hb : nodeVisible b asOf invalid with
    | true =>
      have ha : nodeVisible a asOf invalid = true := by rw [hv, hb]
      rw [@List.find?_cons_of_pos _ (fun s => nodeVisible s asOf invalid) a l ha,
        @List.find?_cons_of_pos _ (fun s => nodeVisible s asOf invalid) b l₀ hb]
      simp [hmin, hdata]
    | false =>
      have ha : ¬ nodeVisible a asOf invalid = true := by
        rw [hv, hb]
        simp
      have hb' : ¬ nodeVisible b asOf invalid = true := by
        rw [hb]
        simp
      rw [@List.find?_cons_of_neg _ (fun s => nodeVisible s asOf invalid) a l ha,
        @List.find?_cons_of_neg _ (fun s => nodeVisible s asOf invalid) b l₀ hb']
      exact ih

theorem find?_append' (p : α → Bool) (l1 l2 : List α) :
    (l1 ++ l2).find? p = (l1.find? p).orElse (fun _ => l2.find? p) := by
  induction l1 with
  | nil => rfl
  | cons a l ih =>
    cases hp : p a with
    | true => simp [List.find?_cons, hp]
    | false => simp [List.find?_cons, hp, ih]

theorem shieldInvB_spec {X : List StateNode} (h : shieldInvB X = true) :
    ∀ i, i < X.length → ∀ k, (X.getD i default).max = some k →
      ∃ j, j < i ∧ (X.getD j default).min = some k := by
  intro i hi k hk
  unfold shieldInvB at h
  have h1 := (List.all_eq_true.mp h) i (List.mem_range.mpr hi)
  rw [hk] at h1
  simp only at h1
  obtain ⟨j, hjmem, hjk⟩ := List.any_eq_true.mp h1
  exact ⟨j, List.mem_range.mp hjmem, by simpa using hjk⟩

/-- The shield cascade: from a node whose creation point is visible, either
that node is visible, or its retirement stamp is visible and the invariant
gives a strictly earlier node whose creation point is that stamp — so some
node of the prefix is visible. -/
theorem shield_cascade (X : List StateNode) (asOf : Nat) (invalid : TransactionSet)
    (hinv : ∀ i, i < X.length → ∀ k, (X.getD i default).max = some k →
      ∃ j, j < i ∧ (X.getD j default).min = some k) :
    ∀ i, i < X.length → ∀ k, (X.getD i default).min = some k →
      isValid (some k) asOf invalid = true →
      ∃ z ∈ X, nodeVisible z asOf invalid = true := by
  intro i
  induction i using Nat.strong_induction_on with
  | _ i ih =>
    intro hi k hk hkv
    cases hvis : nodeVisible (X.getD i default) asOf invalid with
    | true =>
      refine ⟨X.getD i default, ?_, hvis⟩
      rw [List.getD_eq_getElem X default hi]
      exact List.getElem_mem hi
    | false =>
      have hmaxv : isValid (X.getD i default).max asOf invalid = true := by
        unfold nodeVisible at hvis
        rw [hk, hkv] at hvis
        simpa using hvis
      rcases hmax : (X.getD i default).max with _ | k'
      · rw [hmax] at hmaxv
        simp [isValid] at hmaxv
      · rw [hmax] at hmaxv
        obtain ⟨j, hj, hjmin⟩ := hinv i hi k' hmax
        exact ih j hj (Nat.lt_trans hj hi) k' hjmin hmaxv

/-- C3 amended: aborting does not restore the chain structurally — the abort
residue (nodes created by the aborted transaction, and retirement stamps it
left) stays — but for every viewpoint whose invalid set contains the aborted
transaction number (as holds for every transaction begun after the abort,
whose invalid set captures the `aborted` lifecycle entry), visibility
resolution returns the snapshot with the same creation point and the same
payload as it would on the pre-write chain: reads see pre-transaction values.
The aborted transaction's chain delta is covered in full: nodes it created
are interleaved in and kept nodes may carry a fresh retirement stamp
(conjunct one), and the one pre-existing node it retired may have had its
already-set stamp `some m` overwritten to the aborted number (conjunct two) —
there the retirer `m`'s own node sits closer to the head and, chained through
the shield invariant, stops both walks at the same snapshot whenever `m` is
visible, while an invisible `m` makes both stamps equally invisible. -/
theorem c3_abort_rollback :
    (∀ (n asOf : Nat) (invalid : TransactionSet), invalid.contains n = true →
      ∀ (after before : List StateNode), AbortResidue n after before →
      (after.find? fun s => nodeVisible s asOf invalid).map
          (fun s => (s.min, s.data)) =
        (before.find? fun s => nodeVisible s asOf invalid).map
          (fun s => (s.min, s.data))) ∧
    (∀ (n m asOf : Nat) (invalid : TransactionSet) (Xa Xb Y : List StateNode)
        (xa xb : StateNode),
      invalid.contains n = true →
      AbortResidue n Xa Xb →
      xa.min = xb.min → xa.data = xb.data →
      xa.max = some n → xb.max = some m →
      shieldInvB Xb = true →
      (∃ j, j < Xb.length ∧ (Xb.getD j default).min = some m) →
      ((Xa ++ xa :: Y).find? fun s => nodeVisible s asOf invalid).map
          (fun s => (s.min, s.data)) =
        ((Xb ++ xb :: Y).find? fun s => nodeVisible s asOf invalid).map
          (fun s => (s.min, s.data))) := by
  constructor
  · intro n asOf invalid hn after before h
    exact abortResidue_find?_eq n asOf invalid hn after before h
  · intro n m asOf invalid Xa Xb Y xa xb hn hrel hmin hdata hxa hxb hshield hm
    have hpre := abortResidue_find?_eq n asOf invalid hn Xa Xb hrel
    rw [find?_append', find?_append']
    by_cases hmv : isValid (some m) asOf invalid = true
    · obtain ⟨j, hj, hjm⟩ := hm
      obtain ⟨z, hzmem, hzvis⟩ := shield_cascade Xb asOf invalid
        (shieldInvB_spec hshield) j hj m hjm hmv
      have hbsome : (Xb.find? fun s => nodeVisible s asOf invalid).isSome = true := by
        rw [List.find?_isSome]
        exact ⟨z, hzmem, hzvis⟩
      rcases hfb : Xb.find? (fun s => nodeVisible s asOf invalid) with _ | zb
      · rw [hfb] at hbsome
        simp at hbsome
      · rcases hfa : Xa.find? (fun s => nodeVisible s asOf invalid) with _ | za
        · rw [hfa, hfb] at hpre
          simp at hpre
        · rw [hfa, hfb] at hpre
          simpa using hpre
    · have hmf : isValid (some m) asOf invalid = false := by
        cases h : isValid (some m) asOf invalid
        · rfl
        · exact absurd h hmv
      rcases hfa : Xa.find? (fun s => nodeVisible s asOf invalid) with _ | za <;>
        rcases hfb : Xb.find? (fun s => nodeVisible s asOf invalid) with _ | zb <;>
        rw [hfa, hfb] at hpre
      · have hva : nodeVisible xa asOf invalid = nodeVisible xb asOf invalid := by
          unfold nodeVisible
          rw [hmin, hxa, hxb, isValid_contains n asOf invalid hn, hmf]
        simp only [Option.orElse]
        cases hvb : nodeVisible xb asOf invalid
        · have hva' : ¬ nodeVisible xa asOf invalid = true := by
            rw [hva, hvb]
            simp
          have hvb' : ¬ nodeVisible xb asOf invalid = true := by
            rw [hvb]
            simp
          rw [@List.find?_cons_of_neg _ (fun s => nodeVisible s asOf invalid) xa Y hva',
            @List.find?_cons_of_neg _ (fun s => nodeVisible s asOf invalid) xb Y hvb']
        · have hva' : nodeVisible xa asOf invalid = true := by
            rw [hva, hvb]
          rw [@List.find?_cons_of_pos _ (fun s => nodeVisible s asOf invalid) xa Y hva',
            @List.find?_cons_of_pos _ (fun s => nodeVisible s asOf invalid) xb Y hvb]
          simp [hmin, hdata]
      · simp at hpre
      · simp at hpre
      · simpa using hpre

/-- Witness for C3 on the chains of the overwrite-then-abort scenario
(transaction 2 writes and pauses, transaction 3 writes — overwriting the old
head's stamp 2 to 3 — and aborts): a viewpoint with only 3 invalid, to which
2 is visible, resolves both the post-abort chain and the pre-write chain to
transaction 2's snapshot (min 2, payload 7). -/
theorem c3_rollback_witness :
    List.contains [3] 3 = true ∧
    ((([⟨some 3, none, some 1, some 0, 9⟩,
          ⟨some 2, none, some 0, some 0, 7⟩] : List StateNode) ++
        (⟨some 1, some 3, none, none, 5⟩ : StateNode) :: []).find? (fun s =>
          nodeVisible s 4 [3])).map (fun s => (s.min, s.data)) =
      ((([⟨some 2, none, some 0, some 0, 7⟩] : List StateNode) ++
        (⟨some 1, some 2, none, none, 5⟩ : StateNode) :: []).find? (fun s =>
          nodeVisible s 4 [3])).map (fun s => (s.min, s.data)) :=
  ⟨by decide,
   c3_abort_rollback.2 3 2 4 [3]
     [⟨some 3, none, some 1, some 0, 9⟩, ⟨some 2, none, some 0, some 0, 7⟩]
     [⟨some 2, none, some 0, some 0, 7⟩] []
     ⟨some 1, some 3, none, none, 5⟩ ⟨some 1, some 2, none, none, 5⟩ (by decide)
     (.inserted rfl (.kept rfl (Or.inl rfl) rfl .nil)) rfl rfl rfl rfl
     (by decide) ⟨0, by decide, rfl⟩⟩

/-!  The splice of `makeWritable` keeps the chain ordered by `_min`
descending.  -/

theorem spliceWalk_eq_takeWhile (st : List StateNode) (ctn : Nat) :
    ∀ (fuel : Nat) (p : Option Nat) (l : List Nat),
      chainFrom st fuel p = some l →
      spliceWalk st ctn fuel p =
        (l.takeWhile (fun s => decide (ctn < minOf st s)),
         (l.dropWhile (fun s => decide (ctn < minOf st s))).head?) := by
  intro fuel
  induction fuel with
  | zero =>
    intro p l h
    cases p with
    | none =>
      rw [chainFrom_none] at h
      cases h
      rfl
    | some sid => simp [chainFrom] at h
  | succ fuel ih =>
    intro p l h
    cases p with
    | none =>
      rw [chainFrom_none] at h
      cases h
      rfl
    | some sid =>
      rcases hn : st[sid]? with _ | n
      · simp [chainFrom, hn] at h
      · simp only [chainFrom, hn] at h
        rcases hc : chainFrom st fuel n.previous with _ | l'
        · rw [hc] at h
          simp at h
        · rw [hc] at h
          simp only [Option.map_some'] at h
          cases h
          have hmin : minOf st sid = n.min.getD 0 := by
            unfold minOf
            rw [hn]
            rfl
          simp only [spliceWalk, hn, List.takeWhile, List.dropWhile, hmin]
          cases hgt : decide (ctn < n.min.getD 0) with
          | true =>
            simp only [if_pos (of_decide_eq_true hgt), ih n.previous l' hc]
          | false =>
            have : ¬ n.min.getD 0 > ctn := by
              simpa using of_decide_eq_false hgt
            simp only [if_neg this]
            rfl

theorem chainFrom_congr {st st' : List StateNode} :
    ∀ {fuel : Nat} {p : Option Nat} {l : List Nat},
      chainFrom st fuel p = some l →
      (∀ s ∈ l, ∃ n n', st[s]? = some n ∧ st'[s]? = some n' ∧
        n'.previous = n.previous) →
      chainFrom st' fuel p = some l := by
  intro fuel
  induction fuel with
  | zero =>
    intro p l h hcong
    cases p with
    | none => exact h
    | some sid => simp [chainFrom] at h
  | succ fuel ih =>
    intro p l h hcong
    cases p with
    | none => exact h
    | some sid =>
      rcases hn : st[sid]? with _ | n
      · simp [chainFrom, hn] at h
      · simp only [chainFrom, hn] at h
        rcases hc : chainFrom st fuel n.previous with _ | l'
        · rw [hc] at h
          simp at h
        · rw [hc] at h
          simp only [Option.map_some'] at h
          cases h
          obtain ⟨m, m', hm, hm', hmp⟩ := hcong sid (List.mem_cons_self sid l')
          rw [hm] at hn
          cases hn
          simp only [chainFrom, hm', hmp]
          rw [ih hc (fun s hs => hcong s (List.mem_cons_of_mem _ hs))]
          rfl

theorem minOf_modifyIdx (st : List StateNode) (i s : Nat) (f : StateNode → StateNode)
    (hf : ∀ n, (f n).min = n.min) : minOf (modifyIdx st i f) s = minOf st s := by
  unfold minOf
  rw [modifyIdx_getElem?]
  by_cases h : s = i
  · subst h
    cases hx : st[s]? <;> simp [hf]
  · rw [if_neg h]

theorem minOf_append_lt (st : List StateNode) (x : StateNode) (s : Nat)
    (hs : s < st.length) : minOf (st ++ [x]) s = minOf st s := by
  unfold minOf
  rw [List.getElem?_append_left hs]

theorem minOf_append_self (st : List StateNode) (x : StateNode) :
    minOf (st ++ [x]) st.length = x.min.getD 0 := by
  unfold minOf
  rw [List.getElem?_concat_length]
  rfl

theorem nodup_lt_length_le {l : List Nat} {N : Nat} (hnd : l.Nodup)
    (hlt : ∀ x ∈ l, x < N) : l.length ≤ N := by
  classical
  calc l.length = l.toFinset.card := (List.toFinset_card_of_nodup hnd).symm
    _ ≤ (Finset.range N).card := Finset.card_le_card (fun x hx => by
        simp only [Finset.mem_range]
        exact hlt x (List.mem_toFinset.mp hx))
    _ = N := Finset.card_range N

theorem chainFrom_splice_empty (st : List StateNode) (ctn : Nat) (newNode : StateNode)
    (stid : Nat) (hstid : stid < st.length) (B : List Nat)
    (hnp : newNode.previous = B.head?) (fuel : Nat)
    (hB : chainFrom st fuel B.head? = some B) :
    chainFrom (modifyIdx (st ++ [newNode]) stid (fun n => { n with max := some ctn }))
      (fuel + 1) (some st.length) = some (st.length :: B) := by
  have hBlt : ∀ b ∈ B, b < st.length := chainFrom_mem_lt hB
  have hN : (modifyIdx (st ++ [newNode]) stid
      (fun n => { n with max := some ctn }))[st.length]? = some newNode := by
    rw [modifyIdx_getElem?, if_neg (by omega), List.getElem?_concat_length]
  simp only [chainFrom, hN]
  rw [hnp]
  have hBc : chainFrom (modifyIdx (st ++ [newNode]) stid
      (fun n => { n with max := some ctn })) fuel B.head? = some B := by
    refine chainFrom_congr hB ?_
    intro b hb
    have hlt := hBlt b hb
    have hnb : st[b]? = some st[b] := List.getElem?_eq_getElem hlt
    by_cases hbs : b = stid
    · refine ⟨st[b], { st[b] with max := some ctn }, hnb, ?_, rfl⟩
      rw [modifyIdx_getElem?, if_pos hbs, ← hbs,
        List.getElem?_append_left hlt, hnb]
      rfl
    · refine ⟨st[b], st[b], hnb, ?_, rfl⟩
      rw [modifyIdx_getElem?, if_neg hbs, List.getElem?_append_left hlt]
      exact hnb
  rw [hBc]
  rfl

theorem chainFrom_splice_seg (st : List StateNode) (ctn : Nat) (newNode : StateNode)
    (stid : Nat) (hstid : stid < st.length) (w : Nat) (B : List Nat)
    (hnp : newNode.previous = B.head?) :
    ∀ (A : List Nat) (fuel : Nat) (p : Option Nat),
      chainFrom st fuel p = some (A ++ B) →
      A.getLast? = some w →
      (A ++ B).Nodup →
      chainFrom
        (modifyIdx (modifyIdx (st ++ [newNode]) w
          (fun n => { n with previous := some st.length })) stid
          (fun n => { n with max := some ctn }))
        (fuel + 1) p = some (A ++ st.length :: B) := by
  intro A
  induction A with
  | nil =>
    intro fuel p hch hlast hnd
    simp at hlast
  | cons a A' ih =>
    intro fuel p hch hlast hnd
    have hp : p = ((a :: A') ++ B).head? := chainFrom_head hch
    simp only [List.cons_append, List.head?_cons] at hp
    subst hp
    cases fuel with
    | zero => simp [chainFrom] at hch
    | succ fuel =>
      rcases hn : st[a]? with _ | na
      · simp [chainFrom, hn] at hch
      · have halt : a < st.length := lt_of_getElem?_some hn
        simp only [chainFrom, hn] at hch
        rcases hrest : chainFrom st fuel na.previous with _ | rest
        · rw [hrest] at hch
          simp at hch
        · rw [hrest] at hch
          simp only [Option.map_some', List.cons_append, Option.some.injEq,
            List.cons.injEq, true_and] at hch
          subst hch
          simp only [List.cons_append, List.nodup_cons] at hnd
          obtain ⟨hamem, hnd'⟩ := hnd
          rcases A' with _ | ⟨a', A''⟩
          · have hw : a = w := by simpa using hlast
            subst hw
            simp only [List.nil_append] at hrest hnd' hamem
            have hBhead := chainFrom_head hrest
            have hWnode : ∃ node,
                (modifyIdx (modifyIdx (st ++ [newNode]) a
                  (fun n => { n with previous := some st.length })) stid
                  (fun n => { n with max := some ctn }))[a]? = some node ∧
                node.previous = some st.length := by
              rw [modifyIdx_getElem?]
              by_cases has : a = stid
              · rw [if_pos has, ← has, modifyIdx_getElem?, if_pos rfl,
                  List.getElem?_append_left halt, hn]
                exact ⟨_, rfl, rfl⟩
              · rw [if_neg has, modifyIdx_getElem?, if_pos rfl,
                  List.getElem?_append_left halt, hn]
                exact ⟨_, rfl, rfl⟩
            obtain ⟨node, hnode, hnodep⟩ := hWnode
            simp only [chainFrom, hnode, hnodep]
            have hNnode : (modifyIdx (modifyIdx (st ++ [newNode]) a
                (fun n => { n with previous := some st.length })) stid
                (fun n => { n with max := some ctn }))[st.length]? = some newNode := by
              rw [modifyIdx_getElem?, if_neg (by omega), modifyIdx_getElem?,
                if_neg (by omega), List.getElem?_concat_length]
            simp only [chainFrom, hNnode, hnp]
            have hBc : chainFrom (modifyIdx (modifyIdx (st ++ [newNode]) a
                (fun n => { n with previous := some st.length })) stid
                (fun n => { n with max := some ctn })) fuel B.head? = some B := by
              rw [← hBhead]
              refine chainFrom_congr hrest ?_
              intro b hb
              have hblt : b < st.length := chainFrom_mem_lt hrest b hb
              have hba : ¬ b = a := fun hh => hamem (hh ▸ hb)
              have hnb : st[b]? = some st[b] := List.getElem?_eq_getElem hblt
              by_cases hbs : b = stid
              · refine ⟨st[b], { st[b] with max := some ctn }, hnb, ?_, rfl⟩
                rw [modifyIdx_getElem?, if_pos hbs, ← hbs, modifyIdx_getElem?,
                  if_neg hba, List.getElem?_append_left hblt, hnb]
                rfl
              · refine ⟨st[b], st[b], hnb, ?_, rfl⟩
                rw [modifyIdx_getElem?, if_neg hbs, modifyIdx_getElem?,
                  if_neg hba, List.getElem?_append_left hblt]
                exact hnb
            rw [hBc]
            rfl
          · have hlast' : (a' :: A'').getLast? = some w := by
              rwa [List.getLast?_cons_cons] at hlast
            have hIH := ih fuel na.previous hrest hlast' hnd'
            have hwmem : w ∈ (a' :: A'') ++ B :=
              List.mem_append_left B (List.mem_of_mem_getLast? hlast')
            have haw : ¬ a = w := fun hh => hamem (hh ▸ hwmem)
            have hanode : ∃ node,
                (modifyIdx (modifyIdx (st ++ [newNode]) w
                  (fun n => { n with previous := some st.length })) stid
                  (fun n => { n with max := some ctn }))[a]? = some node ∧
                node.previous = na.previous := by
              rw [modifyIdx_getElem?]
              by_cases has : a = stid
              · rw [if_pos has, ← has, modifyIdx_getElem?, if_neg haw,
                  List.getElem?_append_left halt, hn]
                exact ⟨_, rfl, rfl⟩
              · rw [if_neg has, modifyIdx_getElem?, if_neg haw,
                  List.getElem?_append_left halt, hn]
                exact ⟨_, rfl, rfl⟩
            obtain ⟨node, hnode, hnodep⟩ := hanode
            simp only [chainFrom, hnode, hnodep, hIH]
            rfl

theorem sortedByMinDesc_tail (st : List StateNode) (a : Nat) (l : List Nat)
    (h : sortedByMinDesc st (a :: l) = true) : sortedByMinDesc st l = true := by
  cases l with
  | nil => rfl
  | cons b r =>
    rw [sortedByMinDesc] at h
    exact Bool.and_elim_right h

theorem sortedByMinDesc_pair (st : List StateNode) (a b : Nat) (l : List Nat)
    (h : sortedByMinDesc st (a :: b :: l) = true) : minOf st b ≤ minOf st a := by
  rw [sortedByMinDesc] at h
  exact of_decide_eq_true (Bool.and_elim_left h)

theorem sortedByMinDesc_congr (st st' : List StateNode) :
    ∀ (l : List Nat), (∀ x ∈ l, minOf st' x = minOf st x) →
      sortedByMinDesc st' l = sortedByMinDesc st l := by
  intro l
  induction l with
  | nil => intro _; rfl
  | cons a l ih =>
    intro h
    cases l with
    | nil => rfl
    | cons b r =>
      rw [sortedByMinDesc, sortedByMinDesc, h a (by simp), h b (by simp),
        ih (fun x hx => h x (List.mem_cons_of_mem _ hx))]

theorem sorted_insert (st st' : List StateNode) (N ctn : Nat) :
    ∀ (A B : List Nat),
      (∀ a ∈ A, minOf st' a = minOf st a) →
      (∀ b ∈ B, minOf st' b = minOf st b) →
      minOf st' N = ctn →
      sortedByMinDesc st (A ++ B) = true →
      (∀ a ∈ A, ctn < minOf st a) →
      (∀ b ∈ B.head?, minOf st b ≤ ctn) →
      sortedByMinDesc st' (A ++ N :: B) = true := by
  intro A
  induction A with
  | nil =>
    intro B hA hB hN hs hAgt hBle
    cases B with
    | nil => rfl
    | cons b r =>
      simp only [List.nil_append] at hs ⊢
      rw [sortedByMinDesc, hB b (by simp), hN,
        sortedByMinDesc_congr st st' (b :: r) hB, hs]
      have hble := hBle b (by simp)
      simp [hble]
  | cons a A' ih =>
    intro B hA hB hN hs hAgt hBle
    cases A' with
    | nil =>
      simp only [List.nil_append, List.cons_append] at hs ⊢
      have h1 : minOf st' N ≤ minOf st' a := by
        rw [hN, hA a (by simp)]
        exact Nat.le_of_lt (hAgt a (by simp))
      have h2 := ih B (fun x hx => absurd hx (List.not_mem_nil x)) hB hN
        (sortedByMinDesc_tail st a B hs)
        (fun x hx => absurd hx (List.not_mem_nil x)) hBle
      simp only [List.nil_append] at h2
      rw [sortedByMinDesc, h2]
      simp [h1]
    | cons a2 A'' =>
      simp only [List.cons_append] at hs ⊢
      have h1 : minOf st' a2 ≤ minOf st' a := by
        rw [hA a (by simp), hA a2 (by simp)]
        exact sortedByMinDesc_pair st a a2 (A'' ++ B) hs
      have h2 := ih B (fun x hx => hA x (List.mem_cons_of_mem _ hx)) hB hN
        (sortedByMinDesc_tail st a ((a2 :: A'') ++ B) (by simpa using hs))
        (fun x hx => hAgt x (List.mem_cons_of_mem _ hx)) hBle
      simp only [List.cons_append] at h2
      rw [sortedByMinDesc, h2]
      simp [h1]

theorem ensureReadable_previous (e : Engine) (eid : Nat) :
    ((ensureReadable e eid).entities[eid]?).map EntityObj.previous =
      (e.entities[eid]?).map EntityObj.previous := by
  unfold ensureReadable makeReadable
  rcases h : e.entities[eid]? with _ | ent0
  · rw [h]
  · dsimp only
    split
    · rw [List.getElem?_set_self (lt_of_getElem?_some h)]
      rfl
    · rw [h]

set_option maxHeartbeats 1000000 in
/-- C7: when a write creates a new snapshot, the splice walks from the
entity's newest node backward only past nodes whose `_min` is strictly
greater than the current transaction number and links the new node (stamped
with the current number) at that position, so a chain that was ordered by
`_min` descending stays so ordered — also when a lower-numbered paused
transaction resumes and writes after higher-numbered transactions committed
nodes onto the chain. -/
theorem c7_splice_keeps_chain_sorted (e : Engine) (eid : Nat) (ent : EntityObj)
    (l : List Nat)
    (he : e.entities[eid]? = some ent)
    (hc : chainFrom e.states e.states.length (some ent.previous) = some l)
    (hnd : l.Nodup)
    (hs : sortedByMinDesc e.states l = true)
    (hgrow : (ensureWritable e eid).2.states.length = e.states.length + 1) :
    ∃ ent', (ensureWritable e eid).2.entities[eid]? = some ent' ∧
      chainFrom (ensureWritable e eid).2.states (e.states.length + 1)
          (some ent'.previous) =
        some (l.takeWhile
            (fun s => decide (e.currentTransactionNumber < minOf e.states s)) ++
          e.states.length ::
          l.dropWhile
            (fun s => decide (e.currentTransactionNumber < minOf e.states s))) ∧
      sortedByMinDesc (ensureWritable e eid).2.states
        (l.takeWhile
            (fun s => decide (e.currentTransactionNumber < minOf e.states s)) ++
          e.states.length ::
          l.dropWhile
            (fun s => decide (e.currentTransactionNumber < minOf e.states s))) =
        true := by
  have hst := (ensureReadable_parts e eid).2.2.2.2.2.2.1
  have hctn := (ensureReadable_parts e eid).2.2.1
  have hprev := ensureReadable_previous e eid
  rcases ensureWritable_cases e eid with hcase | hcase
  case inr =>
    rw [hcase] at hgrow
    omega
  rw [hcase] at hgrow ⊢
  unfold makeWritable at hgrow ⊢
  rcases hct : e.currentTransaction with _ | t
  · rw [hct] at hgrow
    dsimp only at hgrow
    omega
  rw [hct] at hgrow
  try rw [hct]
  dsimp only at hgrow ⊢
  rcases he2 : (ensureReadable e eid).entities[eid]? with _ | entP
  · rw [he2] at hgrow
    dsimp only at hgrow
    rw [hst] at hgrow
    omega
  rw [he2] at hgrow
  try rw [he2]
  dsimp only at hgrow ⊢
  rcases hes : entP.state with _ | stid
  · rw [hes] at hgrow
    dsimp only at hgrow
    rw [hst] at hgrow
    omega
  rw [hes] at hgrow
  try rw [hes]
  dsimp only at hgrow ⊢
  rcases hss : (ensureReadable e eid).states[stid]? with _ | stN
  · rw [hss] at hgrow
    dsimp only at hgrow
    rw [hst] at hgrow
    omega
  try rw [hss]
  dsimp only
  have hstid : stid < e.states.length := by
    have := lt_of_getElem?_some hss
    rwa [hst] at this
  have heid : eid < (ensureReadable e eid).entities.length := lt_of_getElem?_some he2
  have hpe : entP.previous = ent.previous := by
    rw [he2, he] at hprev
    simpa using hprev
  rw [hst, hctn, hpe]
  have hwalk := spliceWalk_eq_takeWhile e.states e.currentTransactionNumber
    e.states.length (some ent.previous) l hc
  rw [hwalk]
  dsimp only
  rcases hA : (l.takeWhile
      (fun s => decide (e.currentTransactionNumber < minOf e.states s))).getLast?
    with _ | w
  · have hAnil : l.takeWhile
        (fun s => decide (e.currentTransactionNumber < minOf e.states s)) = [] :=
      List.getLast?_eq_none_iff.mp hA
    rw [hAnil]
    have hBl : l.dropWhile
        (fun s => decide (e.currentTransactionNumber < minOf e.states s)) = l := by
      have h0 := List.takeWhile_append_dropWhile
        (fun s => decide (e.currentTransactionNumber < minOf e.states s)) l
      rwa [hAnil, List.nil_append] at h0
    rw [hBl]
    dsimp only
    refine ⟨_, List.getElem?_set_self heid, ?_, ?_⟩
    · have hhead := chainFrom_head hc
      simp only [List.nil_append]
      exact chainFrom_splice_empty e.states e.currentTransactionNumber _ stid hstid l
        rfl e.states.length (by rw [← hhead]; exact hc)
    · refine sorted_insert e.states _ e.states.length e.currentTransactionNumber [] l
        (fun a ha => absurd ha (List.not_mem_nil a)) ?_ ?_ ?_
        (fun a ha => absurd ha (List.not_mem_nil a)) ?_
      · intro b hb
        have hblt := chainFrom_mem_lt hc b hb
        rw [minOf_modifyIdx _ _ _
            (fun n => { n with max := some e.currentTransactionNumber })
            (fun n => rfl),
          minOf_append_lt _ _ _ hblt]
      · rw [minOf_modifyIdx _ _ _
            (fun n => { n with max := some e.currentTransactionNumber })
            (fun n => rfl),
          minOf_append_self]
        rfl
      · simpa using hs
      · intro b hb
        cases l with
        | nil => simp at hb
        | cons hd tl =>
          have hb' : hd = b := by simpa using hb
          subst hb'
          rw [List.takeWhile_cons] at hAnil
          by_cases hp : decide (e.currentTransactionNumber < minOf e.states hd) = true
          · rw [if_pos hp] at hAnil
            simp at hAnil
          · exact Nat.le_of_not_lt (fun hh => hp (decide_eq_true hh))
  · have hAne : l.takeWhile
        (fun s => decide (e.currentTransactionNumber < minOf e.states s)) ≠ [] := by
      intro hh
      rw [hh] at hA
      simp at hA
    rw [List.isEmpty_eq_false.mpr hAne]
    simp only [Bool.false_eq_true, if_false]
    refine ⟨_, List.getElem?_set_self heid, ?_, ?_⟩
    · exact chainFrom_splice_seg e.states e.currentTransactionNumber _ stid hstid w _
        rfl _ e.states.length (some ent.previous)
        (by rw [List.takeWhile_append_dropWhile]; exact hc) hA
        (by rw [List.takeWhile_append_dropWhile]; exact hnd)
    · refine sorted_insert e.states _ e.states.length e.currentTransactionNumber _ _
        ?_ ?_ ?_ ?_ ?_ ?_
      · intro a ha
        have hmem : a ∈ l := (List.takeWhile_sublist _).mem ha
        have halt := chainFrom_mem_lt hc a hmem
        rw [minOf_modifyIdx _ _ _
            (fun n => { n with max := some e.currentTransactionNumber })
            (fun n => rfl),
          minOf_modifyIdx _ _ _
            (fun n => { n with previous := some e.states.length })
            (fun n => rfl),
          minOf_append_lt _ _ _ halt]
      · intro b hb
        have hmem : b ∈ l := (List.dropWhile_sublist _).mem hb
        have hblt := chainFrom_mem_lt hc b hmem
        rw [minOf_modifyIdx _ _ _
            (fun n => { n with max := some e.currentTransactionNumber })
            (fun n => rfl),
          minOf_modifyIdx _ _ _
            (fun n => { n with previous := some e.states.length })
            (fun n => rfl),
          minOf_append_lt _ _ _ hblt]
      · rw [minOf_modifyIdx _ _ _
            (fun n => { n with max := some e.currentTransactionNumber })
            (fun n => rfl),
          minOf_modifyIdx _ _ _
            (fun n => { n with previous := some e.states.length })
            (fun n => rfl),
          minOf_append_self]
        rfl
      · rw [List.takeWhile_append_dropWhile]
        exact hs
      · intro a ha
        have hp := List.mem_takeWhile_imp ha
        exact of_decide_eq_true hp
      · intro b hb
        have hb' : (l.dropWhile
            (fun s => decide (e.currentTransactionNumber < minOf e.states s))).head? =
            some b := hb
        have h0 := List.head?_dropWhile_not
          (fun s => decide (e.currentTransactionNumber < minOf e.states s)) l
        simp [hb'] at h0
        exact Nat.le_of_not_lt (by simpa using h0)


/-- Witness for C7: paused transaction 2 resumes after transaction 3
committed a node; its write splices node 2 between node 1 (min 3) and node 0
(min 1), keeping the chain `_min`-descending. -/
theorem c7_witness :
    ∃ ent', (ensureWritable (run Engine.init [Op.begin false false, Op.bind 5,
        Op.commit, Op.begin false false, Op.pause, Op.begin false false,
        Op.write 0, Op.commit, Op.restore 0]) 0).2.entities[0]? = some ent' ∧
      chainFrom (ensureWritable (run Engine.init [Op.begin false false, Op.bind 5,
          Op.commit, Op.begin false false, Op.pause, Op.begin false false,
          Op.write 0, Op.commit, Op.restore 0]) 0).2.states
          ((run Engine.init [Op.begin false false, Op.bind 5,
            Op.commit, Op.begin false false, Op.pause, Op.begin false false,
            Op.write 0, Op.commit, Op.restore 0]).states.length + 1)
          (some ent'.previous) =
        some ([1, 0].takeWhile (fun s => decide
            ((run Engine.init [Op.begin false false, Op.bind 5,
              Op.commit, Op.begin false false, Op.pause, Op.begin false false,
              Op.write 0, Op.commit, Op.restore 0]).currentTransactionNumber <
            minOf (run Engine.init [Op.begin false false, Op.bind 5,
              Op.commit, Op.begin false false, Op.pause, Op.begin false false,
              Op.write 0, Op.commit, Op.restore 0]).states s)) ++
          (run Engine.init [Op.begin false false, Op.bind 5,
            Op.commit, Op.begin false false, Op.pause, Op.begin false false,
            Op.write 0, Op.commit, Op.restore 0]).states.length ::
          [1, 0].dropWhile (fun s => decide
            ((run Engine.init [Op.begin false false, Op.bind 5,
              Op.commit, Op.begin false false, Op.pause, Op.begin false false,
              Op.write 0, Op.commit, Op.restore 0]).currentTransactionNumber <
            minOf (run Engine.init [Op.begin false false, Op.bind 5,
              Op.commit, Op.begin false false, Op.pause, Op.begin false false,
              Op.write 0, Op.commit, Op.restore 0]).states s))) ∧
      sortedByMinDesc (ensureWritable (run Engine.init [Op.begin false false,
          Op.bind 5, Op.commit, Op.begin false false, Op.pause,
          Op.begin false false, Op.write 0, Op.commit, Op.restore 0]) 0).2.states
        ([1, 0].takeWhile (fun s => decide
            ((run Engine.init [Op.begin false false, Op.bind 5,
              Op.commit, Op.begin false false, Op.pause, Op.begin false false,
              Op.write 0, Op.commit, Op.restore 0]).currentTransactionNumber <
            minOf (run Engine.init [Op.begin false false, Op.bind 5,
              Op.commit, Op.begin false false, Op.pause, Op.begin false false,
              Op.write 0, Op.commit, Op.restore 0]).states s)) ++
          (run Engine.init [Op.begin false false, Op.bind 5,
            Op.commit, Op.begin false false, Op.pause, Op.begin false false,
            Op.write 0, Op.commit, Op.restore 0]).states.length ::
          [1, 0].dropWhile (fun s => decide
            ((run Engine.init [Op.begin false false, Op.bind 5,
              Op.commit, Op.begin false false, Op.pause, Op.begin false false,
              Op.write 0, Op.commit, Op.restore 0]).currentTransactionNumber <
            minOf (run Engine.init [Op.begin false false, Op.bind 5,
              Op.commit, Op.begin false false, Op.pause, Op.begin false false,
              Op.write 0, Op.commit, Op.restore 0]).states s))) = true :=
  c7_splice_keeps_chain_sorted _ 0 { transaction := 3, previous := 1, state := some 1 }
    [1, 0] (by decide) (by decide) (by decide) (by decide) (by decide)


end Coal
